import Mathlib

/-!
Shallow embedding of the RCSPP genetic-algorithm program (`src/main.rs`) and a
verification of the spec's testable properties against it.

Modelling conventions, applied uniformly:

* `f64` costs, resources and fitness values become `ℚ`.  No NaN ever arises in
  the source's arithmetic on finite inputs, so `partial_cmp(..).unwrap_or(Equal)`
  and `partial_cmp(..).unwrap()` both become total comparison on `ℚ`.
* `usize` becomes `Nat`; `usize::MAX` becomes the constant `USIZE_MAX = 2^64-1`.
* `HashMap<usize, _>` keyed by node becomes either a function built by repeated
  update (`buildPriorities`) or an association list whose `insert` conses in
  front so that later inserts shadow earlier ones (`came_from`), matching
  HashMap overwrite semantics.  Iteration order of a HashMap is never observed
  by the source (only `get`), so the association-list representation is exact.
* `BinaryHeap<State>` becomes a list from which `popBest` removes a greatest
  element under the translated `impl Ord for State`.  Among elements whose
  priority and cost tie exactly, the Rust heap's choice is unspecified; the
  model keeps the earliest-pushed one.  All concrete runs below avoid such ties.
* The thread rng `rand::rng()` becomes an explicit deterministic stream
  (`Rng`), threaded through every stochastic operator exactly as `&mut rng` is
  threaded in the source.  `random_range(0..n)` is modelled as `stream % n`;
  in Rust it panics for `n = 0`, so theorems about the stochastic operators
  assume the ranges they draw from are non-empty.
* Unbounded `while` loops become fuel-indexed recursion.  Each fuel bound is
  chosen to exceed the iteration count the Rust loop can reach (justified in a
  comment at the definition), so the fuel-exhaustion branch of the model is
  only taken where the Rust program would not return (it diverges or panics).
-/

namespace RCSPP

/-- Directed edge as in the source: destination, cost, resource-consumption
vector (`struct Edge`). -/
structure Edge where
  «to» : Nat
  cost : ℚ
  resources : List ℚ
deriving DecidableEq

/-- Graph as in the source (`struct Graph`): node count plus outgoing edges
grouped by source node.  The `HashMap<usize, Vec<Edge>>` is represented as an
association list with unique keys. -/
structure Graph where
  num_nodes : Nat
  edges : List (Nat × List Edge)
deriving DecidableEq

/-- Lookup of the edge vector of a node in an adjacency association list. -/
def lookupEdges (l : List (Nat × List Edge)) (u : Nat) : List Edge :=
  match l.find? (fun p => p.1 == u) with
  | some p => p.2
  | none => []

/-- Adjacency lookup, `graph.edges.get(&node)`.  A missing key and an empty
edge vector behave identically in the source (no expansion). -/
def Graph.adj (g : Graph) (u : Nat) : List Edge :=
  lookupEdges g.edges u

/-- Chromosome as in the source: permutation of intermediate nodes plus cached
fitness. -/
structure Chromosome where
  genes : List Nat
  fitness : ℚ
deriving DecidableEq, Inhabited

/-- Search state of the decoder (`struct State`). -/
structure State where
  node : Nat
  cost : ℚ
  resources : List ℚ
  priority : Nat
deriving DecidableEq

/-- Total comparison on `Nat` mirroring Rust's `usize::cmp`. -/
def cmpNatO (a b : Nat) : Ordering :=
  if a < b then .lt else if b < a then .gt else .eq

/-- Total comparison on `ℚ` mirroring `f64::partial_cmp(..).unwrap_or(Equal)`
on non-NaN values. -/
def cmpRat (a b : ℚ) : Ordering :=
  if a < b then .lt else if b < a then .gt else .eq

/-- `impl Ord for State`: `other.priority.cmp(&self.priority)
.then_with(|| other.cost.partial_cmp(&self.cost).unwrap_or(Equal))`.
Both keys are reversed so the max-heap pops the least `(priority, cost)`. -/
def stateCmp (s t : State) : Ordering :=
  (cmpNatO t.priority s.priority).then (cmpRat t.cost s.cost)

/-- Scan of the frontier for a greatest element under `stateCmp` (what
`BinaryHeap::pop` returns); ties in both keys keep the earlier element. -/
def maxState (s0 : State) (rest : List State) : State :=
  rest.foldl (fun best x => if stateCmp best x = .lt then x else best) s0

/-- Pop of the frontier: remove a greatest element under `stateCmp`. -/
def popBest (q : List State) : Option (State × List State) :=
  match q with
  | [] => none
  | s0 :: rest =>
    let m := maxState s0 rest
    some (m, (s0 :: rest).erase m)

/-- Value of `usize::MAX`. -/
def USIZE_MAX : Nat := 2 ^ 64 - 1

/-- One `priorities.insert(node, i)` step: the map updated at the gene value. -/
def prioUpd (m : Nat → Option Nat) (p : Nat × Nat) : Nat → Option Nat :=
  fun x => if x = p.2 then some p.1 else m x

/-- Priority map built in `decode_chromosome`: for each `(i, node)` of the
enumerated gene list, `priorities.insert(node, i)`; a later insert overwrites
an earlier one exactly as in a HashMap. -/
def buildPriorities (genes : List Nat) : Nat → Option Nat :=
  genes.enum.foldl prioUpd (fun _ => none)

/-- Priority lookup `*priorities.get(&v).unwrap_or(&usize::MAX)`. -/
def priorityOf (genes : List Nat) (v : Nat) : Nat :=
  (buildPriorities genes v).getD USIZE_MAX

/-- Resource-feasibility loop of the decoder: walk the limit vector positionally,
adding `edge.resources[i]` to the current cumulative vector, failing at the
first component that exceeds its limit (the source `break`s there, leaving the
rest of the vector untouched - irrelevant, since an invalid vector is dropped).
Rust indexes `edge.resources[i]` and panics when the edge vector is shorter
than the limit vector; the model reads a default `0` there.  The second match
arm (cumulative vector shorter than the limits) is likewise a Rust panic; it is
unreachable from `decode_chromosome`, whose cumulative vectors always have
exactly the length of the limit vector. -/
def checkRes : List ℚ → List ℚ → List ℚ → Option (List ℚ)
  | cur, _, [] => some cur
  | [], _, _ :: _ => some []
  | c :: cs, er, l :: ls =>
    let r := c + er.headD 0
    if l < r then none
    else
      match checkRes cs er.tail ls with
      | none => none
      | some rest => some (r :: rest)

/-- Expansion of one popped state over an edge list: for each resource-feasible
edge, push the successor state and record/overwrite its predecessor.
(`cost_so_far` from the source is written but never read, so it is omitted.) -/
def expandFold (prio : Nat → Nat) (limits : List ℚ) (cur : State)
    (es : List Edge) (q : List State) (cf : List (Nat × Nat)) :
    List State × List (Nat × Nat) :=
  es.foldl
    (fun acc e =>
      match checkRes cur.resources e.resources limits with
      | none => acc
      | some newRes =>
        (⟨e.to, cur.cost + e.cost, newRes, prio e.to⟩ :: acc.1, (e.to, cur.node) :: acc.2))
    (q, cf)

/-- Lookup in the predecessor map (`came_from.get(&v)`); the front-most entry
is the most recent insert, as in a HashMap. -/
def lookupCF (cf : List (Nat × Nat)) (v : Nat) : Option Nat :=
  match cf.find? (fun p => p.1 == v) with
  | some p => some p.2
  | none => none

/-- Path reconstruction after the sink is popped: walk `came_from` back and
reverse.  A walk that never leaves the key set of `came_from` revisits a key
within `cf.length + 1` steps and then cycles forever in Rust; the model's fuel
exhaustion (`none`) therefore coincides exactly with Rust divergence, and any
terminating Rust walk finishes within the given fuel. -/
def walkBack (cf : List (Nat × Nat)) : Nat → Nat → List Nat → Option (List Nat)
  | 0, _, _ => none
  | fuel + 1, node, path =>
    match lookupCF cf node with
    | none => some path.reverse
    | some prev => walkBack cf fuel prev (path ++ [prev])

/-- Total number of edges of the graph. -/
def totalEdges (g : Graph) : Nat :=
  g.edges.foldl (fun n p => n + p.2.length) 0

/-- Main search loop of `decode_chromosome`.  Iteration count in Rust is
bounded by `1 + total pushes + 1`: every iteration pops one state, pushes
happen only when a node is expanded for the first time, and each node is
expanded at most once, so pushes never exceed `totalEdges`.  `decodeFuel`
below exceeds this bound, hence fuel never runs out on the branch Rust takes. -/
def searchLoop (g : Graph) (prio : Nat → Nat) (limits : List ℚ) :
    Nat → List State → List Nat → List (Nat × Nat) → Option (List Nat × ℚ)
  | 0, _, _, _ => none
  | fuel + 1, queue, visited, cf =>
    match popBest queue with
    | none => none
    | some (cur, rest) =>
      if cur.node = g.num_nodes - 1 then
        (walkBack cf (cf.length + 1) cur.node [cur.node]).map (fun p => (p, cur.cost))
      else if cur.node ∈ visited then
        searchLoop g prio limits fuel rest visited cf
      else
        let qcf := expandFold prio limits cur (g.adj cur.node) rest cf
        searchLoop g prio limits fuel qcf.1 (cur.node :: visited) qcf.2

/-- Fuel bound for the decoder loop; see `searchLoop`. -/
def decodeFuel (g : Graph) : Nat := g.num_nodes + totalEdges g + 2

/-- Decoder on a raw gene list (the source reads the chromosome only through
its genes). -/
def decodeAux (g : Graph) (genes : List Nat) (limits : List ℚ) :
    Option (List Nat × ℚ) :=
  searchLoop g (priorityOf genes) limits (decodeFuel g)
    [⟨0, 0, List.replicate limits.length 0, 0⟩] [] []

/-- `decode_chromosome` from the source. -/
def decode_chromosome (g : Graph) (c : Chromosome) (limits : List ℚ) :
    Option (List Nat × ℚ) :=
  decodeAux g c.genes limits

/-- Deterministic model of the thread rng: one shared stream for the integer
draws and one for the float draws, consumed through a single advancing index.
The program observes randomness only through `random_range` and
`random::<f64>()`, so any behaviour of the Rust rng is one choice of streams. -/
structure Rng where
  natF : Nat → Nat
  ratF : Nat → ℚ
  idx : Nat

/-- `rng.random_range(0..n)`: a value in `[0, n)`.  Rust panics on an empty
range; the model's `% 0` branch is never relied upon by a theorem. -/
def Rng.randRange (r : Rng) (n : Nat) : Nat × Rng :=
  (r.natF r.idx % n, ⟨r.natF, r.ratF, r.idx + 1⟩)

/-- `rng.random::<f64>()`: a value in `[0, 1)`. -/
def Rng.randReal (r : Rng) : ℚ × Rng :=
  (r.ratF r.idx, ⟨r.natF, r.ratF, r.idx + 1⟩)

/-- `Vec::swap(i, j)` on a list (both indices in bounds in every use the
source makes). -/
def listSwap (l : List Nat) (i j : Nat) : List Nat :=
  (l.set i (l.getD j 0)).set j (l.getD i 0)

/-- Fisher-Yates core of rand's `shuffle`: for each `i` of `idxs`, swap
position `i` with a drawn position in `0..=i`. -/
def shuffleFold (l : List Nat) (idxs : List Nat) (rng : Rng) : List Nat × Rng :=
  idxs.foldl
    (fun acc i =>
      let d := acc.2.randRange (i + 1)
      (listSwap acc.1 i d.1, d.2))
    (l, rng)

/-- rand's `SliceRandom::shuffle`: Fisher-Yates from the last index down to 1. -/
def shuffle (l : List Nat) (rng : Rng) : List Nat × Rng :=
  shuffleFold l (List.range' 1 (l.length - 1)).reverse rng

/-- `generate_random_chromosome`: genes are `(1..num_nodes-1).collect()`
shuffled, fitness starts at 0.  (For `num_nodes = 0` Rust underflows/panics on
`num_nodes - 1`; theorems assume at least 2 nodes.) -/
def generate_random_chromosome (num_nodes : Nat) (rng : Rng) : Chromosome × Rng :=
  let p := shuffle (List.range' 1 (num_nodes - 2)) rng
  (⟨p.1, 0⟩, p.2)

/-- Fill phase of the order crossover: walk parent 2's genes in order; place
each unused gene at the cursor, advance the cursor modulo `n`, stop when the
cursor comes back to `start`. -/
def fillLoop (used : Nat → Bool) (start n : Nat) :
    List Nat → List Nat → Nat → List Nat
  | [], child, _ => child
  | gene :: rest, child, j =>
    if used gene then fillLoop used start n rest child j
    else
      let child' := child.set j gene
      let j' := (j + 1) % n
      if j' = start then child' else fillLoop used start n rest child' j'

/-- Indices `start..=end` of the copied segment. -/
def segIdx (start endIdx : Nat) : List Nat :=
  List.range' start (endIdx + 1 - start)

/-- Values parent 1 holds on the copied segment. -/
def segVals (genes1 : List Nat) (start endIdx : Nat) : List Nat :=
  (segIdx start endIdx).map (fun i => genes1.getD i 0)

/-- The `used` array of the source (indexed by gene value), modelled as
membership in the copied segment - identical on every index the source can
touch when the parents hold permutations. -/
def usedF (genes1 : List Nat) (start endIdx : Nat) : Nat → Bool :=
  fun gene => (segVals genes1 start endIdx).contains gene

/-- The child after `vec![0; n]` and the copy loop
`for i in start..=end { child_genes[i] = parent1.genes[i] }`. -/
def childSeg (genes1 : List Nat) (n start endIdx : Nat) : List Nat :=
  (segIdx start endIdx).foldl (fun c i => c.set i (genes1.getD i 0)) (List.replicate n 0)

/-- Gene list of the order-crossover child once the two cut points are known.
The source walks `parent2.genes[0..n]`, hence the `take n`; for equal-length
parents that is the whole list (Rust panics when parent 2 is shorter). -/
def crossoverGenes (genes1 genes2 : List Nat) (x1 x2 : Nat) : List Nat :=
  let n := genes1.length
  let start := min x1 x2
  let endIdx := max x1 x2
  fillLoop (usedF genes1 start endIdx) start n (genes2.take n)
    (childSeg genes1 n start endIdx) ((endIdx + 1) % n)

/-- `crossover` (order crossover, OX): draw two cut points, copy
`parent1.genes[start..=end]` verbatim, fill the remaining slots from parent 2
in order, wrapping circularly.  Rust panics on `random_range(0..0)` when the
gene lists are empty. -/
def crossover (p1 p2 : Chromosome) (rng : Rng) : Chromosome × Rng :=
  let n := p1.genes.length
  let d1 := rng.randRange n
  let d2 := d1.2.randRange n
  (⟨crossoverGenes p1.genes p2.genes d1.1 d2.1, 0⟩, d2.2)

/-- `mutate`: with probability `mutation_rate` swap two uniformly drawn gene
positions (possibly equal). -/
def mutate (c : Chromosome) (mutation_rate : ℚ) (rng : Rng) : Chromosome × Rng :=
  let d := rng.randReal
  if d.1 < mutation_rate then
    let n := c.genes.length
    let di := d.2.randRange n
    let dj := di.2.randRange n
    (⟨listSwap c.genes di.1 dj.1, c.fitness⟩, dj.2)
  else (c, d.2)

/-- `tournament_selection`: sample one candidate, then `tournament_size - 1`
competitors, keeping a competitor only when its fitness is strictly higher. -/
def tournament_selection (population : List Chromosome) (tournament_size : Nat)
    (rng : Rng) : Chromosome × Rng :=
  let d0 := rng.randRange population.length
  let best0 := population.getD d0.1 default
  (List.range (tournament_size - 1)).foldl
    (fun acc _ =>
      let d := acc.2.randRange population.length
      let competitor := population.getD d.1 default
      ((if acc.1.fitness < competitor.fitness then competitor else acc.1), d.2))
    (best0, d0.2)

/-- Fitness evaluation as inlined twice in `genetic_algorithm`:
`1.0 / cost` on a decoded path, `0.0` otherwise. -/
def evalChrom (g : Graph) (limits : List ℚ) (c : Chromosome) : Chromosome :=
  match decode_chromosome g c limits with
  | some pc => ⟨c.genes, 1 / pc.2⟩
  | none => ⟨c.genes, 0⟩

/-- Descending-by-fitness order used by
`population.sort_by(|a, b| b.fitness.partial_cmp(&a.fitness).unwrap())`. -/
def fitGe (a b : Chromosome) : Prop := b.fitness ≤ a.fitness

instance : DecidableRel fitGe := fun a b => inferInstanceAs (Decidable (b.fitness ≤ a.fitness))

instance : IsTotal Chromosome fitGe := ⟨fun a b => le_total b.fitness a.fitness⟩

instance : IsTrans Chromosome fitGe := ⟨fun _ _ _ h1 h2 => le_trans h2 h1⟩

/-- The source's stable descending sort by fitness.  Rust's `sort_by` is a
stable sort; any two stable sorts under the same total preorder produce the
same output list, so Mathlib's insertion sort is extensionally exact. -/
def sortDesc (l : List Chromosome) : List Chromosome :=
  l.insertionSort fitGe

/-- Body of one iteration of `while new_population.len() < population_size`:
two tournament parents, crossover with probability `crossover_rate` (otherwise
a clone of the strictly fitter parent, ties to parent 2), mutation, and
evaluation of the resulting child. -/
def makeChild (g : Graph) (limits : List ℚ) (cr mr : ℚ) (pop : List Chromosome)
    (rng : Rng) : Chromosome × Rng :=
  let t1 := tournament_selection pop 3 rng
  let t2 := tournament_selection pop 3 t1.2
  let dc := t2.2.randReal
  let cRes :=
    if dc.1 < cr then crossover t1.1 t2.1 dc.2
    else if t2.1.fitness < t1.1.fitness then (t1.1, dc.2)
    else (t2.1, dc.2)
  let mRes := mutate cRes.1 mr cRes.2
  (evalChrom g limits mRes.1, mRes.2)

/-- The `while new_population.len() < population_size { .. }` loop.  The loop
appends one chromosome per iteration, so it makes at most `P` iterations;
`fillChildren` is always called with fuel `P`, hence fuel never runs out. -/
def fillChildren (g : Graph) (limits : List ℚ) (P : Nat) (cr mr : ℚ)
    (pop : List Chromosome) :
    Nat → List Chromosome → Rng → List Chromosome × Rng
  | 0, acc, rng => (acc, rng)
  | fuel + 1, acc, rng =>
    if acc.length < P then
      let ch := makeChild g limits cr mr pop rng
      fillChildren g limits P cr mr pop fuel (acc ++ [ch.1]) ch.2
    else (acc, rng)

/-- One generation of `genetic_algorithm`: sort descending, keep the top
`⌊0.1 * P⌋` verbatim, fill the rest with evaluated children.  The source
computes the elite count as `(P as f64 * 0.1) as usize`, which agrees with
`P / 10` on every population size whose `f64` image is exact. -/
def gaStep (g : Graph) (limits : List ℚ) (P : Nat) (cr mr : ℚ)
    (pr : List Chromosome × Rng) : List Chromosome × Rng :=
  let sorted := sortDesc pr.1
  let elite := sorted.take (P / 10)
  fillChildren g limits P cr mr sorted P elite pr.2

/-- Initial population: `P` sequential calls of `generate_random_chromosome`. -/
def initPop (num_nodes : Nat) : Nat → Rng → List Chromosome × Rng
  | 0, rng => ([], rng)
  | k + 1, rng =>
    let c := generate_random_chromosome num_nodes rng
    let rest := initPop num_nodes k c.2
    (c.1 :: rest.1, rest.2)

/-- The `for _ in 0..generations` loop. -/
def gaIter (g : Graph) (limits : List ℚ) (P : Nat) (cr mr : ℚ) :
    Nat → List Chromosome × Rng → List Chromosome × Rng
  | 0, pr => pr
  | gens + 1, pr => gaIter g limits P cr mr gens (gaStep g limits P cr mr pr)

/-- `genetic_algorithm` (the spec's `run_search`): initial population,
initial evaluation, `G` generations, final sort, decode of the best.  Rust
indexes `population[0]` at the end and panics when `P = 0`; the model returns
`none` on that unreachable-for-positive-`P` branch. -/
def genetic_algorithm (g : Graph) (P G : Nat) (cr mr : ℚ) (limits : List ℚ)
    (rng : Rng) : Option (List Nat) :=
  let ip := initPop g.num_nodes P rng
  let pop0 := ip.1.map (evalChrom g limits)
  let fin := gaIter g limits P cr mr G (pop0, ip.2)
  match sortDesc fin.1 with
  | [] => none
  | best :: _ => (decode_chromosome g best limits).map (fun pc => pc.1)

/-- Trace of the populations reached by the generation loop (the population
before the loop, then after each generation). -/
def gaTraceAux (g : Graph) (limits : List ℚ) (P : Nat) (cr mr : ℚ) :
    Nat → List Chromosome × Rng → List (List Chromosome)
  | 0, pr => [pr.1]
  | gens + 1, pr => pr.1 :: gaTraceAux g limits P cr mr gens (gaStep g limits P cr mr pr)

/-- Populations of a full run, generation by generation: the same pipeline as
`genetic_algorithm`, instrumented to return every generation's population. -/
def gaPopulations (g : Graph) (P G : Nat) (cr mr : ℚ) (limits : List ℚ)
    (rng : Rng) : List (List Chromosome) :=
  let ip := initPop g.num_nodes P rng
  let pop0 := ip.1.map (evalChrom g limits)
  gaTraceAux g limits P cr mr G (pop0, ip.2)

/-- Insertion into the adjacency map:
`graph.edges.entry(from).or_insert_with(Vec::new).push(edge)`. -/
def insertEdge : List (Nat × List Edge) → Nat → Edge → List (Nat × List Edge)
  | [], f, e => [(f, [e])]
  | p :: rest, f, e =>
    if p.1 = f then (p.1, p.2 ++ [e]) :: rest else p :: insertEdge rest f e

/-- Graph construction as in `main`: every `(from, to, cost, resources)` tuple
is pushed into the adjacency map; no validation of any kind is performed. -/
def buildGraph (num_nodes : Nat) (es : List (Nat × Nat × ℚ × List ℚ)) : Graph :=
  es.foldl
    (fun g e => ⟨g.num_nodes, insertEdge g.edges e.1 ⟨e.2.1, e.2.2.1, e.2.2.2⟩⟩)
    ⟨num_nodes, []⟩

/-- First edge from `u` to `v` in the adjacency list (property evaluator). -/
def edgeBetween (g : Graph) (u v : Nat) : Option Edge :=
  (g.adj u).find? (fun e => e.to == v)

/-- Componentwise vector sum (property evaluator). -/
def addVec (a b : List ℚ) : List ℚ := a.zipWith (· + ·) b

/-- Cumulative resource vector after each edge of a path: the quantity the
spec's feasibility property constrains at every path position. -/
def pathResVectors (g : Graph) (limits : List ℚ) (path : List Nat) :
    List (List ℚ) :=
  ((path.zip path.tail).scanl
    (fun acc uv =>
      addVec acc (((edgeBetween g uv.1 uv.2).map Edge.resources).getD
        (List.replicate limits.length 0)))
    (List.replicate limits.length 0)).tail

/-- Componentwise comparison against the limit vector (property evaluator). -/
def vecLe (a b : List ℚ) : Bool := (a.zip b).all (fun p => decide (p.1 ≤ p.2))

/-- The spec's feasibility property of a returned path: every cumulative
resource vector along the path stays within the limits. -/
def feasibleAlong (g : Graph) (limits : List ℚ) (path : List Nat) : Bool :=
  (pathResVectors g limits path).all (fun r => vecLe r limits)

/-! ### Proof-side definitions -/

/-- Lexicographic at-most-as-good order on frontier keys: lower priority value
first, then lower cost. -/
def keyLe (a b : State) : Prop :=
  a.priority < b.priority ∨ (a.priority = b.priority ∧ a.cost ≤ b.cost)

/-- The fitness value the evolution loop assigns to a gene list: `1/cost` when
the decoder succeeds, `0` when it fails. -/
def fitnessSpec (g : Graph) (limits : List ℚ) (genes : List Nat) : ℚ :=
  match decodeAux g genes limits with
  | some pc => 1 / pc.2
  | none => 0

/-- Sequential position writes: set slot `s` to value `v` pairwise along two
lists (proof-side normal form of the crossover fill loops). -/
def fillPos : List Nat → List Nat → List Nat → List Nat
  | c, s :: ss, v :: vs => fillPos (c.set s v) ss vs
  | c, _, _ => c

/-! ### Concrete instances used by the evaluations and witnesses -/

/-- A 5-node graph with a single resource dimension.  Two routes reach node 3:
the cheap low-resource one through node 1 and the expensive high-resource one
through node 2; both pushes of node 3 are feasible, so `came_from[3]` ends up
overwritten by the push from node 2. -/
def exGraph : Graph := buildGraph 5
  [(0, 1, 1, [1]), (0, 2, 2, [9]), (1, 3, 1, [1]), (2, 3, 1, [1]), (3, 4, 1, [5])]

/-- Chromosome giving node 1 the best priority in `exGraph`. -/
def exChrom : Chromosome := ⟨[1, 2, 3], 0⟩

/-- A 4-node resource-free graph on which the decoded cost depends on the
chromosome: genes `[1, 2]` decode to cost 1, genes `[2, 1]` to cost 6. -/
def exG5 : Graph := buildGraph 4
  [(0, 1, 0, []), (0, 2, 5, []), (1, 2, 0, []), (2, 3, 1, [])]

/-- A 3-node line graph. -/
def exG3 : Graph := buildGraph 3 [(0, 1, 1, []), (1, 2, 1, [])]

/-- A 2-node graph whose single edge consumes both resources. -/
def twoG : Graph := buildGraph 2 [(0, 1, 1, [1, 1])]

/-- A simple concrete rng stream. -/
def cRng : Rng := ⟨fun k => k, fun _ => 0, 0⟩

/-- Rng stream forcing: no swap in the initial shuffle (draw 0), clone branch
(real draws 0), mutation triggered with swap positions 0 and 1 (draws 9, 10). -/
def dRng : Rng := ⟨fun k => if k = 9 then 0 else 1, fun _ => 0, 0⟩

/-- A population of ten identical evaluated chromosomes for `exG3`. -/
def pop10 : List Chromosome := List.replicate 10 ⟨[1], 1/2⟩

/-! ### C1 -/

unseal Rat.add Rat.mul Rat.inv Rat.sub Nat.gcd in
/-- C1: refuted on the code (code bug).  On `exGraph` with limits `[10]` the
decoder returns the path `[0, 2, 3, 4]` with cost 3: the predecessor entry of
node 3 was overwritten by the later feasible push from node 2, so the
reconstructed path is not the path the accepted search state travelled (whose
cost 3 and resources `[7]` belong to `0→1→3→4`).  The returned path's
cumulative resource vectors are `[9], [10], [15]`, and `[15]` exceeds the
limit `[10]`: the claimed per-prefix feasibility of returned paths is false. -/
theorem c1_eval :
    decode_chromosome exGraph exChrom [10] = some ([0, 2, 3, 4], 3) ∧
    pathResVectors exGraph [10] [0, 2, 3, 4] = [[9], [10], [15]] ∧
    feasibleAlong exGraph [10] [0, 2, 3, 4] = false := by
  decide

/-! ### C5: counterexample -/

unseal Rat.add Rat.mul Rat.inv Rat.sub Nat.gcd in
/-- C5, counterexample to the monotonicity half: with population size 1 the
elite count `⌊0.1 * 1⌋` is 0, and a full run (`gaPopulations`) on `exG5` whose
mutation swaps the two genes drops the best fitness from 1 in generation 0 to
1/6 in generation 1. -/
theorem c5_counterexample :
    gaPopulations exG5 1 1 0 1 [] dRng = [[⟨[1, 2], 1⟩], [⟨[2, 1], 1/6⟩]] ∧
    ((1 : ℚ) / 6 < 1) := by
  decide

/-! ### C7 -/

/-- Unfolding of a lookup over a cons cell. -/
theorem lookupEdges_cons (p : Nat × List Edge) (l : List (Nat × List Edge)) (u : Nat) :
    lookupEdges (p :: l) u = if p.1 = u then p.2 else lookupEdges l u := by
  by_cases h : p.1 = u
  · simp [lookupEdges, List.find?_cons_of_pos, h]
  · have hbeq : (p.1 == u) = false := by simpa using h
    rw [if_neg h]
    simp [lookupEdges, List.find?_cons_of_neg, hbeq]

/-- Key lookup after inserting at that key: the edge is appended. -/
theorem lookupEdges_insertEdge_self (l : List (Nat × List Edge)) (f : Nat) (e : Edge) :
    lookupEdges (insertEdge l f e) f = lookupEdges l f ++ [e] := by
  induction l with
  | nil => simp [insertEdge, lookupEdges_cons, lookupEdges]
  | cons p rest ih =>
    by_cases hp : p.1 = f
    · simp [insertEdge, hp, lookupEdges_cons]
    · simp [insertEdge, if_neg hp, lookupEdges_cons, hp, ih]

/-- Lookup at another key is unchanged by an insert. -/
theorem lookupEdges_insertEdge_other (l : List (Nat × List Edge)) (f u : Nat) (e : Edge)
    (h : u ≠ f) : lookupEdges (insertEdge l f e) u = lookupEdges l u := by
  have hfu : ¬ f = u := fun hx => h hx.symm
  induction l with
  | nil => simp [insertEdge, lookupEdges_cons, lookupEdges, hfu]
  | cons p rest ih =>
    by_cases hp : p.1 = f
    · have hpu : ¬ p.1 = u := fun hx => h (hx ▸ hp ▸ rfl)
      simp [insertEdge, hp, lookupEdges_cons, hpu, hfu]
    · simp [insertEdge, if_neg hp, lookupEdges_cons, ih]

/-- Membership in a lookup is preserved by any insert. -/
theorem mem_lookupEdges_insertEdge (l : List (Nat × List Edge)) (f u : Nat) (e e' : Edge)
    (h : e ∈ lookupEdges l u) : e ∈ lookupEdges (insertEdge l f e') u := by
  by_cases hu : u = f
  · subst hu
    rw [lookupEdges_insertEdge_self]
    exact List.mem_append_left _ h
  · rw [lookupEdges_insertEdge_other _ _ _ _ hu]
    exact h

/-- Membership in a lookup is preserved by the whole construction fold. -/
theorem mem_lookupEdges_foldG (es : List (Nat × Nat × ℚ × List ℚ)) :
    ∀ (g : Graph) (u : Nat) (e : Edge), e ∈ lookupEdges g.edges u →
      e ∈ lookupEdges (es.foldl
        (fun g e => ⟨g.num_nodes, insertEdge g.edges e.1 ⟨e.2.1, e.2.2.1, e.2.2.2⟩⟩)
        g).edges u := by
  induction es with
  | nil => intro g u e h; exact h
  | cons q rest ih =>
    intro g u e h
    exact ih _ u e (mem_lookupEdges_insertEdge _ _ _ _ _ h)

/-- Every input tuple ends up in the lookup of the construction fold, for any
starting accumulator. -/
theorem mem_lookupEdges_foldG_of_mem (es : List (Nat × Nat × ℚ × List ℚ)) :
    ∀ (g : Graph) (f t : Nat) (c : ℚ) (r : List ℚ), (f, t, c, r) ∈ es →
      (⟨t, c, r⟩ : Edge) ∈ lookupEdges (es.foldl
        (fun g e => ⟨g.num_nodes, insertEdge g.edges e.1 ⟨e.2.1, e.2.2.1, e.2.2.2⟩⟩)
        g).edges f := by
  induction es with
  | nil => intro g f t c r h; cases h
  | cons q rest ih =>
    intro g f t c r h
    rcases List.mem_cons.mp h with hq | hq
    · subst hq
      refine mem_lookupEdges_foldG rest _ f _ ?_
      rw [lookupEdges_insertEdge_self]
      exact List.mem_append_right _ (List.mem_singleton_self _)
    · exact ih _ f t c r hq

/-- C7, amended: graph construction performs no validation whatsoever - every
input tuple, whatever the length of its resource vector, ends up as an edge in
the adjacency list of its source node. -/
theorem c7_no_validation (num_nodes : Nat) (es : List (Nat × Nat × ℚ × List ℚ))
    (f t : Nat) (c : ℚ) (r : List ℚ) (h : (f, t, c, r) ∈ es) :
    (⟨t, c, r⟩ : Edge) ∈ (buildGraph num_nodes es).adj f :=
  mem_lookupEdges_foldG_of_mem es ⟨num_nodes, []⟩ f t c r h

unseal Rat.add Rat.mul Rat.inv Rat.sub Nat.gcd in
/-- C7, counterexample to the claim as stated: an edge list mixing resource
vectors of length 1 and length 2 is accepted unchanged by the construction in
`main` - there is no `InvalidEdge` failure, the function is not even fallible. -/
theorem c7_counterexample :
    (buildGraph 3 [(0, 1, 1, [1]), (1, 2, 1, [1, 1])]).adj 0 = [⟨1, 1, [1]⟩] ∧
    (buildGraph 3 [(0, 1, 1, [1]), (1, 2, 1, [1, 1])]).adj 1 = [⟨2, 1, [1, 1]⟩] := by
  decide

/-- C7, witness for the amended theorem. -/
theorem c7_witness :
    ((0, 1, (1 : ℚ), [(1 : ℚ)]) ∈ [(0, 1, (1 : ℚ), [(1 : ℚ)]), (1, 2, 1, [1, 1])]) ∧
    (⟨1, 1, [1]⟩ : Edge) ∈ (buildGraph 3 [(0, 1, 1, [1]), (1, 2, 1, [1, 1])]).adj 0 :=
  ⟨List.mem_cons_self _ _,
   c7_no_validation 3 [(0, 1, 1, [1]), (1, 2, 1, [1, 1])] 0 1 1 [1]
     (List.mem_cons_self _ _)⟩

/-! ### C8 -/

/-- C8, amended: the source contains no node-count guard at all.  For
`num_nodes ≤ 2` the generated chromosome has the empty gene list - the empty
intermediate-node permutation is attempted, not rejected. -/
theorem c8_empty_permutation (num_nodes : Nat) (rng : Rng) (h : num_nodes ≤ 2) :
    (generate_random_chromosome num_nodes rng).1.genes = [] := by
  have h2 : num_nodes - 2 = 0 := by omega
  simp [generate_random_chromosome, shuffle, shuffleFold, h2]

unseal Rat.add Rat.mul Rat.inv Rat.sub Nat.gcd in
/-- C8, counterexample to the claim as stated: on a 2-node graph the whole
search runs normally over empty chromosomes and returns the path `[0, 1]` -
it does not fail fast, and no `InvalidGraph` error exists in the source. -/
theorem c8_counterexample :
    genetic_algorithm twoG 1 0 0 0 [] dRng = some [0, 1] ∧
    (generate_random_chromosome 2 cRng).1.genes = [] := by
  decide

/-- C8, witness for the amended theorem. -/
theorem c8_witness :
    2 ≤ 2 ∧ (generate_random_chromosome 2 cRng).1.genes = [] :=
  ⟨le_refl 2, c8_empty_permutation 2 cRng (le_refl 2)⟩

/-! ### C9 -/

/-- C9: the run is a function of the rng streams alone - two rng handles that
agree pointwise (same integer stream, same float stream, same position) yield
identical populations at every generation.  The single `Rng` value is threaded
through chromosome generation, crossover, mutation and selection in the
definitions above, exactly as `&mut rng` is in the source. -/
theorem c9_determinism (g : Graph) (P G : Nat) (cr mr : ℚ) (limits : List ℚ)
    (rng1 rng2 : Rng)
    (hnat : ∀ k, rng1.natF k = rng2.natF k)
    (hrat : ∀ k, rng1.ratF k = rng2.ratF k)
    (hidx : rng1.idx = rng2.idx) :
    gaPopulations g P G cr mr limits rng1 = gaPopulations g P G cr mr limits rng2 := by
  have : rng1 = rng2 := by
    cases rng1
    cases rng2
    simp only [Rng.mk.injEq]
    exact ⟨funext hnat, funext hrat, hidx⟩
  rw [this]

/-! ### C2 -/

theorem keyLe_refl (a : State) : keyLe a a := Or.inr ⟨rfl, le_refl _⟩

theorem keyLe_trans {a b c : State} (h1 : keyLe a b) (h2 : keyLe b c) : keyLe a c := by
  rcases h1 with h1 | ⟨h1, h1c⟩ <;> rcases h2 with h2 | ⟨h2, h2c⟩
  · exact Or.inl (lt_trans h1 h2)
  · exact Or.inl (h2 ▸ h1)
  · exact Or.inl (h1 ▸ h2)
  · exact Or.inr ⟨h1.trans h2, h1c.trans h2c⟩

theorem then_eq_lt (o p : Ordering) :
    o.then p = .lt ↔ (o = .lt ∨ (o = .eq ∧ p = .lt)) := by
  cases o <;> simp [Ordering.then]

theorem cmpNatO_eq_lt (a b : Nat) : cmpNatO a b = .lt ↔ a < b := by
  unfold cmpNatO
  split_ifs with h1 h2 <;> simp_all

theorem cmpNatO_eq_eq (a b : Nat) : cmpNatO a b = .eq ↔ a = b := by
  unfold cmpNatO
  split_ifs with h1 h2 <;> simp_all <;> omega

theorem cmpRat_eq_lt (a b : ℚ) : cmpRat a b = .lt ↔ a < b := by
  unfold cmpRat
  split_ifs with h1 h2 <;> simp_all

theorem cmpRat_eq_eq (a b : ℚ) : cmpRat a b = .eq ↔ a = b := by
  unfold cmpRat
  split_ifs with h1 h2
  · simp only [reduceCtorEq, false_iff]
    exact ne_of_lt h1
  · simp only [reduceCtorEq, false_iff]
    exact ne_of_gt h2
  · simp only [true_iff]
    exact le_antisymm (not_lt.mp h2) (not_lt.mp h1)

/-- The translated `Ord for State` returns `Less` exactly when the other state
has the strictly better `(priority, cost)` key. -/
theorem stateCmp_eq_lt_iff (a b : State) :
    stateCmp a b = .lt ↔
      (b.priority < a.priority ∨ (b.priority = a.priority ∧ b.cost < a.cost)) := by
  unfold stateCmp
  rw [then_eq_lt, cmpNatO_eq_lt, cmpNatO_eq_eq, cmpRat_eq_lt]

theorem not_stateCmp_lt_iff (a b : State) :
    ¬ stateCmp a b = .lt ↔ keyLe a b := by
  rw [stateCmp_eq_lt_iff]
  unfold keyLe
  constructor
  · intro h
    push_neg at h
    obtain ⟨h1, h2⟩ := h
    rcases Nat.lt_trichotomy a.priority b.priority with hp | hp | hp
    · exact Or.inl hp
    · exact Or.inr ⟨hp, h2 hp.symm⟩
    · exact absurd hp (not_lt.mpr h1)
  · intro h hcon
    rcases hcon with hb | ⟨hbp, hbc⟩
    · rcases h with h | ⟨h, _⟩
      · exact lt_asymm h hb
      · exact absurd (h ▸ hb) (lt_irrefl _)
    · rcases h with h | ⟨_, hc⟩
      · exact absurd (hbp ▸ h) (lt_irrefl _)
      · exact absurd hbc (not_lt.mpr hc)

theorem maxState_cons (s0 x : State) (xs : List State) :
    maxState s0 (x :: xs) = maxState (if stateCmp s0 x = .lt then x else s0) xs := rfl

theorem maxState_mem : ∀ (rest : List State) (s0 : State), maxState s0 rest ∈ s0 :: rest := by
  intro rest
  induction rest with
  | nil => intro s0; simp [maxState]
  | cons x xs ih =>
    intro s0
    rw [maxState_cons]
    by_cases h : stateCmp s0 x = .lt
    · rw [if_pos h]
      rcases List.mem_cons.mp (ih x) with h' | h'
      · rw [h']; simp
      · simp [h']
    · rw [if_neg h]
      rcases List.mem_cons.mp (ih s0) with h' | h'
      · rw [h']; simp
      · simp [h']

/-- The state returned by the frontier scan is below every frontier entry in
the `(priority, cost)` order. -/
theorem maxState_keyLe : ∀ (rest : List State) (s0 : State), ∀ t ∈ s0 :: rest,
    keyLe (maxState s0 rest) t := by
  intro rest
  induction rest with
  | nil =>
    intro s0 t ht
    rcases List.mem_cons.mp ht with h | h
    · subst h; exact keyLe_refl _
    · exact absurd h (List.not_mem_nil _)
  | cons x xs ih =>
    intro s0 t ht
    rw [maxState_cons]
    by_cases h : stateCmp s0 x = .lt
    · rw [if_pos h]
      have hxs0 : keyLe x s0 := by
        rcases (stateCmp_eq_lt_iff s0 x).mp h with h' | ⟨h1, h2⟩
        · exact Or.inl h'
        · exact Or.inr ⟨h1, le_of_lt h2⟩
      rcases List.mem_cons.mp ht with h' | h'
      · subst h'
        exact keyLe_trans (ih x x (List.mem_cons_self _ _)) hxs0
      · exact ih x t h'
    · rw [if_neg h]
      have hs0x : keyLe s0 x := (not_stateCmp_lt_iff s0 x).mp h
      rcases List.mem_cons.mp ht with h' | h'
      · rw [h']
        exact ih s0 s0 (List.mem_cons_self _ _)
      · rcases List.mem_cons.mp h' with h'' | h''
        · subst h''
          exact keyLe_trans (ih s0 s0 (List.mem_cons_self _ _)) hs0x
        · exact ih s0 t (List.mem_cons_of_mem _ h'')

/-- A successful pop returns a state minimal in the frontier under
`(priority ascending, cost ascending)`. -/
theorem popBest_min (q : List State) (s : State) (rest : List State)
    (h : popBest q = some (s, rest)) : ∀ t ∈ q, keyLe s t := by
  cases q with
  | nil => simp [popBest] at h
  | cons s0 r =>
    simp only [popBest, Option.some.injEq, Prod.mk.injEq] at h
    obtain ⟨h1, _⟩ := h
    rw [← h1]
    exact maxState_keyLe r s0

theorem foldPrio_not_mem : ∀ (l : List (Nat × Nat)) (m : Nat → Option Nat) (v : Nat),
    (∀ p ∈ l, p.2 ≠ v) → (l.foldl prioUpd m) v = m v := by
  intro l
  induction l with
  | nil => intro m v _; rfl
  | cons p rest ih =>
    intro m v h
    simp only [List.foldl_cons]
    rw [ih _ v (fun q hq => h q (List.mem_cons_of_mem _ hq))]
    have hv : ¬ v = p.2 := fun hv => h p (List.mem_cons_self _ _) hv.symm
    simp [prioUpd, hv]

theorem foldPrio_eq_some : ∀ (l : List (Nat × Nat)) (m : Nat → Option Nat) (v i : Nat),
    (l.foldl prioUpd m) v = some i → m v = some i ∨ (i, v) ∈ l := by
  intro l
  induction l with
  | nil => intro m v i h; exact Or.inl h
  | cons p rest ih =>
    intro m v i h
    simp only [List.foldl_cons] at h
    rcases ih _ v i h with h' | h'
    · by_cases hv : v = p.2
      · simp only [prioUpd, if_pos hv, Option.some.injEq] at h'
        right
        rw [← h', hv]
        exact List.mem_cons_self _ _
      · simp only [prioUpd, if_neg hv] at h'
        exact Or.inl h'
    · exact Or.inr (List.mem_cons_of_mem _ h')

theorem foldPrio_isSome : ∀ (l : List (Nat × Nat)) (m : Nat → Option Nat) (v : Nat),
    ((∃ p ∈ l, p.2 = v) ∨ (m v).isSome) → ((l.foldl prioUpd m) v).isSome := by
  intro l
  induction l with
  | nil =>
    intro m v h
    rcases h with ⟨p, hp, _⟩ | h
    · exact absurd hp (List.not_mem_nil _)
    · exact h
  | cons p rest ih =>
    intro m v h
    simp only [List.foldl_cons]
    refine ih _ v ?_
    rcases h with ⟨q, hq, hqv⟩ | h
    · rcases List.mem_cons.mp hq with h'' | h''
      · right
        subst h''
        simp [prioUpd, hqv.symm]
      · exact Or.inl ⟨q, h'', hqv⟩
    · right
      by_cases hv : v = p.2 <;> simp [prioUpd, hv, h]

/-- A gene absent from the chromosome gets no priority entry. -/
theorem buildPriorities_not_mem (genes : List Nat) (v : Nat) (h : v ∉ genes) :
    buildPriorities genes v = none := by
  unfold buildPriorities
  rw [foldPrio_not_mem]
  intro p hp hv
  rw [List.mem_enum_iff_getElem?] at hp
  exact h (hv ▸ List.getElem?_mem hp)

/-- A gene present in the chromosome gets a priority entry below the gene
count. -/
theorem buildPriorities_mem (genes : List Nat) (u : Nat) (h : u ∈ genes) :
    ∃ i, buildPriorities genes u = some i ∧ i < genes.length := by
  have hsome : (buildPriorities genes u).isSome := by
    unfold buildPriorities
    refine foldPrio_isSome _ _ u (Or.inl ?_)
    obtain ⟨i, hi, hv⟩ := List.getElem_of_mem h
    exact ⟨(i, u), List.mk_mem_enum_iff_getElem?.mpr (by simp [List.getElem?_eq_some, hi, hv]), rfl⟩
  obtain ⟨i, hi⟩ := Option.isSome_iff_exists.mp hsome
  refine ⟨i, hi, ?_⟩
  have := foldPrio_eq_some _ _ u i hi
  rcases this with h' | h'
  · cases h'
  · rw [List.mk_mem_enum_iff_getElem?] at h'
    exact (List.getElem?_eq_some.mp h').1

/-- C2: confirmed.  (1) Whenever the decoder's frontier pops a state, that
state is minimal among the current frontier entries in the order `(priority
ascending, cost ascending)` - this is the best-first discipline the spec
describes, noting that a pop is minimal among the entries present at that
moment (later pushes may carry smaller keys).  (2) A destination node absent
from the chromosome's gene list is assigned `usize::MAX`.  (3) Such a node
sorts (strictly) after every node present in the gene list. -/
theorem c2_frontier_order :
    (∀ (q : List State) (s : State) (rest : List State),
      popBest q = some (s, rest) →
      ∀ t ∈ q, s.priority < t.priority ∨
        (s.priority = t.priority ∧ s.cost ≤ t.cost)) ∧
    (∀ (genes : List Nat) (v : Nat), v ∉ genes → priorityOf genes v = USIZE_MAX) ∧
    (∀ (genes : List Nat) (u v : Nat), u ∈ genes → v ∉ genes →
      genes.length ≤ USIZE_MAX → priorityOf genes u < priorityOf genes v) := by
  refine ⟨popBest_min, fun genes v hv => ?_, fun genes u v hu hv hlen => ?_⟩
  · unfold priorityOf
    rw [buildPriorities_not_mem genes v hv]
    rfl
  · unfold priorityOf
    rw [buildPriorities_not_mem genes v hv]
    obtain ⟨i, hi, hlt⟩ := buildPriorities_mem genes u hu
    rw [hi]
    simpa using lt_of_lt_of_le hlt hlen

/-- C2, witness: a two-state frontier pops the lower-priority state, and a
node outside the genes `[1, 2]` gets `usize::MAX`, after both gene entries. -/
theorem c2_witness :
    (∀ t ∈ [(⟨1, 5, [], 3⟩ : State), ⟨2, 1, [], 0⟩],
      (⟨2, 1, [], 0⟩ : State).priority < t.priority ∨
        ((⟨2, 1, [], 0⟩ : State).priority = t.priority ∧
          (⟨2, 1, [], 0⟩ : State).cost ≤ t.cost)) ∧
    priorityOf [1, 2] 5 = USIZE_MAX ∧
    priorityOf [1, 2] 1 < priorityOf [1, 2] 5 :=
  ⟨c2_frontier_order.1 [⟨1, 5, [], 3⟩, ⟨2, 1, [], 0⟩] ⟨2, 1, [], 0⟩ [⟨1, 5, [], 3⟩]
      (by decide),
   c2_frontier_order.2.1 [1, 2] 5 (by decide),
   c2_frontier_order.2.2 [1, 2] 1 5 (by decide) (by decide) (by decide)⟩

/-! ### C6 -/

theorem popBest_singleton (s : State) : popBest [s] = some (s, []) := by
  simp [popBest, maxState]

theorem searchLoop_nil (g : Graph) (prio : Nat → Nat) (limits : List ℚ)
    (fuel : Nat) (visited : List Nat) (cf : List (Nat × Nat)) :
    searchLoop g prio limits fuel [] visited cf = none := by
  cases fuel <;> simp [searchLoop, popBest]

/-- With all-zero limits, an edge with a nonnegative first resource component
and a positive component among the first two is always infeasible. -/
theorem checkRes_zero_none (er : List ℚ)
    (h0 : 0 ≤ er.getD 0 0) (hpos : 0 < er.getD 0 0 ∨ 0 < er.getD 1 0) :
    checkRes [0, 0] er [0, 0] = none := by
  have hhead : er.headD 0 = er.getD 0 0 := by cases er <;> rfl
  have htail : er.tail.headD 0 = er.getD 1 0 := by
    cases er with
    | nil => rfl
    | cons a t => cases t <;> rfl
  by_cases hp : 0 < er.getD 0 0
  · simp only [checkRes, hhead, zero_add]
    rw [if_pos hp]
  · have hz : er.getD 0 0 = 0 := le_antisymm (not_lt.mp hp) h0
    have hp1 : 0 < er.getD 1 0 := by
      rcases hpos with h | h
      · exact absurd h hp
      · exact h
    simp only [checkRes, hhead, htail, zero_add, hz]
    rw [if_neg (lt_irrefl 0), if_pos hp1]

/-- Expansion over edges that are all infeasible changes nothing. -/
theorem expandFold_none (prio : Nat → Nat) (limits : List ℚ) (cur : State) :
    ∀ (es : List Edge) (q : List State) (cf : List (Nat × Nat)),
      (∀ e ∈ es, checkRes cur.resources e.resources limits = none) →
      expandFold prio limits cur es q cf = (q, cf) := by
  intro es
  induction es with
  | nil => intro q cf _; rfl
  | cons e rest ih =>
    intro q cf h
    have he := h e (List.mem_cons_self _ _)
    show List.foldl _ _ (e :: rest) = _
    rw [List.foldl_cons]
    simp only [he]
    exact ih q cf fun e' he' => h e' (List.mem_cons_of_mem _ he')

/-- An adjacency edge comes from some entry of the edge association list. -/
theorem adj_mem_edges (g : Graph) (u : Nat) (e : Edge) (h : e ∈ g.adj u) :
    ∃ p ∈ g.edges, e ∈ p.2 := by
  unfold Graph.adj lookupEdges at h
  rcases hf : g.edges.find? (fun p => p.1 == u) with _ | p
  · rw [hf] at h
    cases h
  · rw [hf] at h
    exact ⟨p, List.mem_of_find?_eq_some hf, h⟩

/-- With limits `[0, 0]` and only resource-consuming edges, the decoder never
pushes a successor: the frontier empties right after the source is expanded. -/
theorem decode_zero_limits_none (g : Graph)
    (hnn : 2 ≤ g.num_nodes)
    (hres : ∀ p ∈ g.edges, ∀ e ∈ p.2,
      0 ≤ e.resources.getD 0 0 ∧ (0 < e.resources.getD 0 0 ∨ 0 < e.resources.getD 1 0)) :
    ∀ genes : List Nat, decodeAux g genes [0, 0] = none := by
  intro genes
  have hedge : ∀ e ∈ g.adj 0,
      checkRes (⟨0, 0, [0, 0], 0⟩ : State).resources e.resources [0, 0] = none := by
    intro e he
    obtain ⟨p, hp, hep⟩ := adj_mem_edges g 0 e he
    obtain ⟨h0, hpos⟩ := hres p hp e hep
    exact checkRes_zero_none e.resources h0 hpos
  obtain ⟨f, hf⟩ : ∃ f, decodeFuel g = f + 1 + 1 :=
    ⟨decodeFuel g - 2, by unfold decodeFuel; omega⟩
  have hsink : ¬ ((0 : Nat) = g.num_nodes - 1) := by omega
  unfold decodeAux
  rw [hf]
  show searchLoop g (priorityOf genes) [0, 0] (f + 1 + 1) [⟨0, 0, [0, 0], 0⟩] [] [] = none
  rw [searchLoop, popBest_singleton]
  simp only [if_neg hsink, List.not_mem_nil, if_false,
    expandFold_none _ _ _ _ _ _ hedge]
  exact searchLoop_nil g _ _ (f + 1) [0] []

/-- Final decode of `genetic_algorithm` under a decoder that always fails. -/
theorem ga_final_none (g : Graph) (limits : List ℚ) (P G : Nat) (cr mr : ℚ)
    (rng : Rng) (hdec : ∀ c : Chromosome, decode_chromosome g c limits = none) :
    genetic_algorithm g P G cr mr limits rng = none := by
  simp only [genetic_algorithm]
  split
  · rfl
  · simp [hdec]

/-- C6: confirmed.  With `resource_limits = [0, 0]` and every edge consuming a
positive amount of one of the two resources (resource values being
nonnegative), decode is infeasible for every chromosome and the overall result
of the search is `None`.  The population-size hypothesis `1 ≤ P` keeps the run
inside the source's defined behavior (`population[0]` panics for `P = 0`). -/
theorem c6_zero_limits (g : Graph) (P G : Nat) (cr mr : ℚ) (rng : Rng)
    (hnn : 2 ≤ g.num_nodes) (_hP : 1 ≤ P)
    (hres : ∀ p ∈ g.edges, ∀ e ∈ p.2,
      0 ≤ e.resources.getD 0 0 ∧ (0 < e.resources.getD 0 0 ∨ 0 < e.resources.getD 1 0)) :
    (∀ c : Chromosome, decode_chromosome g c [0, 0] = none) ∧
    genetic_algorithm g P G cr mr [0, 0] rng = none := by
  have hdec : ∀ c : Chromosome, decode_chromosome g c [0, 0] = none :=
    fun c => decode_zero_limits_none g hnn hres c.genes
  exact ⟨hdec, ga_final_none g [0, 0] P G cr mr rng hdec⟩

unseal Rat.add Rat.mul Rat.inv Rat.sub Nat.gcd in
/-- C6, witness at the 2-node graph whose single edge consumes both resources. -/
theorem c6_witness :
    (2 ≤ twoG.num_nodes ∧ 1 ≤ 1) ∧
    (∀ c : Chromosome, decode_chromosome twoG c [0, 0] = none) ∧
    genetic_algorithm twoG 1 0 0 0 [0, 0] cRng = none :=
  ⟨⟨by decide, le_refl 1⟩,
   c6_zero_limits twoG 1 0 0 0 cRng (by decide) (le_refl 1) (by decide)⟩

/-! ### C10 -/

/-- A predecessor-map entry `(v, u)` comes from an actual lookup hit. -/
theorem lookupCF_mem (cf : List (Nat × Nat)) (v u : Nat) (h : lookupCF cf v = some u) :
    (v, u) ∈ cf := by
  unfold lookupCF at h
  rcases hf : cf.find? (fun p => p.1 == v) with _ | p
  · rw [hf] at h
    cases h
  · rw [hf] at h
    have hp := List.find?_some hf
    have hmem := List.mem_of_find?_eq_some hf
    injection h with h
    have hp1 : p.1 = v := by simpa using hp
    have hpe : p = (v, u) := by
      cases p
      simp_all
    rw [← hpe]
    exact hmem

/-- Reconstruction correctness: if every predecessor entry is backed by a
graph edge, a successful walk returns a non-empty list whose last element is
the walk's starting point and whose consecutive pairs are graph edges. -/
theorem walkBack_spec (g : Graph) (cf : List (Nat × Nat))
    (hcf : ∀ p ∈ cf, ∃ e ∈ g.adj p.2, e.to = p.1) :
    ∀ (fuel node : Nat) (acc res : List Nat),
      walkBack cf fuel node acc = some res →
      acc ≠ [] → acc.getLast? = some node →
      List.Chain' (fun a b => lookupCF cf a = some b) acc →
      res ≠ [] ∧ res.getLast? = acc.head? ∧
        List.Chain' (fun u v => ∃ e ∈ g.adj u, e.to = v) res := by
  intro fuel
  induction fuel with
  | zero =>
    intro node acc res h
    cases h
  | succ f ih =>
    intro node acc res h hne hlast hchain
    rw [walkBack] at h
    rcases hlk : lookupCF cf node with _ | prev
    · rw [hlk] at h
      injection h with h
      subst h
      refine ⟨by simpa using hne, ?_, ?_⟩
      · have h2 := List.head?_reverse acc.reverse
        rw [List.reverse_reverse] at h2
        exact h2.symm
      · rw [List.chain'_reverse]
        refine hchain.imp ?_
        intro a b hab
        obtain ⟨e, he, hto⟩ := hcf (a, b) (lookupCF_mem cf a b hab)
        exact ⟨e, he, hto⟩
    · rw [hlk] at h
      have hres := ih prev (acc ++ [prev]) res h (by simp) (List.getLast?_concat _) ?_
      · obtain ⟨r1, r2, r3⟩ := hres
        refine ⟨r1, ?_, r3⟩
        rw [r2]
        cases acc with
        | nil => exact absurd rfl hne
        | cons a t => rfl
      · rw [List.chain'_append]
        refine ⟨hchain, List.chain'_singleton _, ?_⟩
        intro x hx y hy
        simp only [List.head?_cons, Option.mem_def, Option.some.injEq] at hy
        rw [hlast] at hx
        simp only [Option.mem_def, Option.some.injEq] at hx
        rw [← hx, ← hy]
        exact hlk

/-- Expansion only records predecessor entries backed by graph edges. -/
theorem expandFold_cf (g : Graph) (prio : Nat → Nat) (limits : List ℚ) (cur : State) :
    ∀ (es : List Edge) (q : List State) (cf : List (Nat × Nat)),
      (∀ p ∈ cf, ∃ e ∈ g.adj p.2, e.to = p.1) →
      (∀ e ∈ es, e ∈ g.adj cur.node) →
      ∀ p ∈ (expandFold prio limits cur es q cf).2, ∃ e ∈ g.adj p.2, e.to = p.1 := by
  intro es
  induction es with
  | nil => intro q cf hcf _; exact hcf
  | cons e rest ih =>
    intro q cf hcf hes
    simp only [expandFold, List.foldl_cons]
    rcases hc : checkRes cur.resources e.resources limits with _ | newRes
    · simp only [hc]
      exact ih q cf hcf fun e' he' => hes e' (List.mem_cons_of_mem _ he')
    · simp only [hc]
      refine ih _ _ ?_ fun e' he' => hes e' (List.mem_cons_of_mem _ he')
      intro p hp
      rcases List.mem_cons.mp hp with hp | hp
      · subst hp
        exact ⟨e, hes e (List.mem_cons_self _ _), rfl⟩
      · exact hcf p hp

/-- Search-loop invariant: any returned path is non-empty, ends at the sink,
and follows graph edges. -/
theorem searchLoop_spec (g : Graph) (prio : Nat → Nat) (limits : List ℚ) :
    ∀ (fuel : Nat) (queue : List State) (visited : List Nat)
      (cf : List (Nat × Nat)) (path : List Nat) (cost : ℚ),
      (∀ p ∈ cf, ∃ e ∈ g.adj p.2, e.to = p.1) →
      searchLoop g prio limits fuel queue visited cf = some (path, cost) →
      path ≠ [] ∧ path.getLast? = some (g.num_nodes - 1) ∧
        List.Chain' (fun u v => ∃ e ∈ g.adj u, e.to = v) path := by
  intro fuel
  induction fuel with
  | zero =>
    intro q vis cf path cost _ h
    cases h
  | succ f ih =>
    intro q vis cf path cost hcf h
    rw [searchLoop] at h
    rcases hq : popBest q with _ | pr
    · rw [hq] at h
      cases h
    · obtain ⟨cur, rest⟩ := pr
      rw [hq] at h
      simp only [] at h
      by_cases hsink : cur.node = g.num_nodes - 1
      · rw [if_pos hsink] at h
        rcases hw : walkBack cf (cf.length + 1) cur.node [cur.node] with _ | p
        · rw [hw] at h
          cases h
        · rw [hw] at h
          simp only [Option.map_some', Option.some.injEq, Prod.mk.injEq] at h
          obtain ⟨hp, _⟩ := h
          subst hp
          have hres := walkBack_spec g cf hcf (cf.length + 1) cur.node [cur.node] _ hw
            (List.cons_ne_nil _ _) rfl (List.chain'_singleton _)
          obtain ⟨r1, r2, r3⟩ := hres
          refine ⟨r1, ?_, r3⟩
          rw [r2, List.head?_cons, hsink]
      · rw [if_neg hsink] at h
        by_cases hvis : cur.node ∈ vis
        · rw [if_pos hvis] at h
          exact ih rest vis cf path cost hcf h
        · rw [if_neg hvis] at h
          refine ih _ _ _ path cost ?_ h
          exact expandFold_cf g prio limits cur (g.adj cur.node) rest cf hcf
            (fun e he => he)

/-- C10: confirmed.  Whenever the decoder returns `Some((path, cost))`, the
path is non-empty, ends at the sink `num_nodes - 1`, and each consecutive pair
of its nodes is a directed edge present in the graph's adjacency lists. -/
theorem c10_path_valid (g : Graph) (c : Chromosome) (limits : List ℚ)
    (path : List Nat) (cost : ℚ)
    (h : decode_chromosome g c limits = some (path, cost)) :
    path ≠ [] ∧ path.getLast? = some (g.num_nodes - 1) ∧
      List.Chain' (fun u v => ∃ e ∈ g.adj u, e.to = v) path := by
  unfold decode_chromosome decodeAux at h
  exact searchLoop_spec g (priorityOf c.genes) limits (decodeFuel g) _ [] [] path cost
    (fun p hp => absurd hp (List.not_mem_nil p)) h

unseal Rat.add Rat.mul Rat.inv Rat.sub Nat.gcd in
/-- C10, witness on the concrete decode of `exGraph`. -/
theorem c10_witness :
    decode_chromosome exGraph exChrom [10] = some ([0, 2, 3, 4], 3) ∧
    (([0, 2, 3, 4] : List Nat) ≠ [] ∧
      ([0, 2, 3, 4] : List Nat).getLast? = some (exGraph.num_nodes - 1) ∧
      List.Chain' (fun u v => ∃ e ∈ exGraph.adj u, e.to = v) [0, 2, 3, 4]) :=
  ⟨by decide, c10_path_valid exGraph exChrom [10] [0, 2, 3, 4] 3 (by decide)⟩

/-! ### C4 -/

/-- Evaluation establishes the fitness invariant. -/
theorem evalChrom_fitness (g : Graph) (limits : List ℚ) (c : Chromosome) :
    (evalChrom g limits c).fitness = fitnessSpec g limits (evalChrom g limits c).genes := by
  unfold evalChrom fitnessSpec decode_chromosome
  rcases h : decodeAux g c.genes limits with _ | pc <;> simp [h]

/-- Every child produced by the loop body is an evaluated chromosome. -/
theorem makeChild_eval (g : Graph) (limits : List ℚ) (cr mr : ℚ)
    (pop : List Chromosome) (rng : Rng) :
    ∃ x, (makeChild g limits cr mr pop rng).1 = evalChrom g limits x :=
  ⟨_, rfl⟩

/-- The fitness invariant is preserved by the child-filling loop. -/
theorem fillChildren_inv (g : Graph) (limits : List ℚ) (P : Nat) (cr mr : ℚ)
    (pop : List Chromosome) :
    ∀ (fuel : Nat) (acc : List Chromosome) (rng : Rng),
      (∀ c ∈ acc, c.fitness = fitnessSpec g limits c.genes) →
      ∀ c ∈ (fillChildren g limits P cr mr pop fuel acc rng).1,
        c.fitness = fitnessSpec g limits c.genes := by
  intro fuel
  induction fuel with
  | zero => intro acc rng hacc; exact hacc
  | succ f ih =>
    intro acc rng hacc
    rw [fillChildren]
    split
    · refine ih _ _ ?_
      intro c hc
      rcases List.mem_append.mp hc with h | h
      · exact hacc c h
      · rw [List.mem_singleton] at h
        obtain ⟨x, hx⟩ := makeChild_eval g limits cr mr pop rng
        rw [h, hx]
        exact evalChrom_fitness g limits x
    · exact hacc

theorem sortDesc_perm (l : List Chromosome) : (sortDesc l).Perm l :=
  List.perm_insertionSort fitGe l

/-- The fitness invariant is preserved by one generation. -/
theorem gaStep_inv (g : Graph) (limits : List ℚ) (P : Nat) (cr mr : ℚ)
    (pr : List Chromosome × Rng)
    (h : ∀ c ∈ pr.1, c.fitness = fitnessSpec g limits c.genes) :
    ∀ c ∈ (gaStep g limits P cr mr pr).1, c.fitness = fitnessSpec g limits c.genes := by
  unfold gaStep
  refine fillChildren_inv g limits P cr mr _ P _ _ ?_
  intro c hc
  exact h c ((sortDesc_perm pr.1).subset (List.mem_of_mem_take hc))

/-- The fitness invariant holds for every population of the trace. -/
theorem gaTraceAux_inv (g : Graph) (limits : List ℚ) (P : Nat) (cr mr : ℚ) :
    ∀ (G : Nat) (pr : List Chromosome × Rng),
      (∀ c ∈ pr.1, c.fitness = fitnessSpec g limits c.genes) →
      ∀ pop ∈ gaTraceAux g limits P cr mr G pr, ∀ c ∈ pop,
        c.fitness = fitnessSpec g limits c.genes := by
  intro G
  induction G with
  | zero =>
    intro pr hpr pop hpop
    simp only [gaTraceAux, List.mem_singleton] at hpop
    subst hpop
    exact hpr
  | succ n ih =>
    intro pr hpr pop hpop
    simp only [gaTraceAux, List.mem_cons] at hpop
    rcases hpop with h | h
    · subst h
      exact hpr
    · exact ih _ (gaStep_inv g limits P cr mr pr hpr) pop h

/-- C4: confirmed.  Every chromosome of every generation of a run carries
exactly the fitness the decoder dictates: `1/cost` when decode succeeds with
that cost, `0` when decode fails.  (Elites keep the fitness of their own
earlier evaluation against the same graph and limits; every new child is
re-evaluated after mutation.) -/
theorem c4_fitness (g : Graph) (P G : Nat) (cr mr : ℚ) (limits : List ℚ) (rng : Rng) :
    ∀ pop ∈ gaPopulations g P G cr mr limits rng, ∀ c ∈ pop,
      (∀ path cost, decode_chromosome g c limits = some (path, cost) →
        c.fitness = 1 / cost) ∧
      (decode_chromosome g c limits = none → c.fitness = 0) := by
  intro pop hpop c hc
  have hpop' : pop ∈ gaTraceAux g limits P cr mr G
      ((initPop g.num_nodes P rng).1.map (evalChrom g limits),
        (initPop g.num_nodes P rng).2) := hpop
  have hinv : c.fitness = fitnessSpec g limits c.genes := by
    refine gaTraceAux_inv g limits P cr mr G _ ?_ pop hpop' c hc
    intro c' hc'
    obtain ⟨x, _, hx⟩ := List.mem_map.mp hc'
    rw [← hx]
    exact evalChrom_fitness g limits x
  constructor
  · intro path cost hdec
    rw [hinv]
    unfold fitnessSpec
    unfold decode_chromosome at hdec
    rw [hdec]
  · intro hdec
    rw [hinv]
    unfold fitnessSpec
    unfold decode_chromosome at hdec
    rw [hdec]

unseal Rat.add Rat.mul Rat.inv Rat.sub Nat.gcd in
/-- C4, witness on the one-generation-zero run over `exG3`. -/
theorem c4_witness :
    [(⟨[1], 1/2⟩ : Chromosome)] ∈ gaPopulations exG3 1 0 0 0 [] cRng ∧
    (⟨[1], 1/2⟩ : Chromosome) ∈ [(⟨[1], 1/2⟩ : Chromosome)] ∧
    ((∀ path cost, decode_chromosome exG3 ⟨[1], 1/2⟩ [] = some (path, cost) →
        (⟨[1], 1/2⟩ : Chromosome).fitness = 1 / cost) ∧
      (decode_chromosome exG3 ⟨[1], 1/2⟩ [] = none →
        (⟨[1], 1/2⟩ : Chromosome).fitness = 0)) :=
  ⟨by decide, by decide,
   c4_fitness exG3 1 0 0 0 [] cRng [⟨[1], 1/2⟩] (by decide) ⟨[1], 1/2⟩ (by decide)⟩

/-! ### C5 -/

/-- The filling loop only ever appends to its accumulator. -/
theorem fillChildren_append (g : Graph) (limits : List ℚ) (P : Nat) (cr mr : ℚ)
    (pop : List Chromosome) :
    ∀ (fuel : Nat) (acc : List Chromosome) (rng : Rng),
      ∃ tail, (fillChildren g limits P cr mr pop fuel acc rng).1 = acc ++ tail := by
  intro fuel
  induction fuel with
  | zero => intro acc rng; exact ⟨[], (List.append_nil acc).symm⟩
  | succ f ih =>
    intro acc rng
    rw [fillChildren]
    split
    · show ∃ tail,
        (fillChildren g limits P cr mr pop f
          (acc ++ [(makeChild g limits cr mr pop rng).1])
          (makeChild g limits cr mr pop rng).2).1 = acc ++ tail
      obtain ⟨t, ht⟩ :=
        ih (acc ++ [(makeChild g limits cr mr pop rng).1]) (makeChild g limits cr mr pop rng).2
      exact ⟨[(makeChild g limits cr mr pop rng).1] ++ t, by rw [ht, List.append_assoc]⟩
    · exact ⟨[], (List.append_nil acc).symm⟩

/-- C5, amended: for every population size the sorted top `⌊0.1 * P⌋`
chromosomes are cloned verbatim as a prefix of the next generation; and when
`⌊0.1 * P⌋ ≥ 1` (i.e. `P ≥ 10`) the sorted head - a chromosome of maximal
fitness of generation `g` - survives into generation `g+1`, so the best
fitness cannot decrease.  (For `P < 10` the elite is empty and the best
fitness can drop, see the counterexample.) -/
theorem c5_elitism (g : Graph) (limits : List ℚ) (P : Nat) (cr mr : ℚ)
    (pop : List Chromosome) (rng : Rng) (helite : 1 ≤ P / 10) (hpop : pop ≠ []) :
    (∃ tail, (gaStep g limits P cr mr (pop, rng)).1 =
      (sortDesc pop).take (P / 10) ++ tail) ∧
    ∃ c ∈ (gaStep g limits P cr mr (pop, rng)).1,
      ∀ c' ∈ pop, c'.fitness ≤ c.fitness := by
  obtain ⟨b, t, hbt⟩ : ∃ b t, sortDesc pop = b :: t := by
    rcases hs : sortDesc pop with _ | ⟨b, t⟩
    · exfalso
      apply hpop
      have hlen := (sortDesc_perm pop).length_eq
      rw [hs] at hlen
      exact List.length_eq_zero.mp hlen.symm
    · exact ⟨b, t, rfl⟩
  have happ : ∃ tail, (gaStep g limits P cr mr (pop, rng)).1 =
      (sortDesc pop).take (P / 10) ++ tail := by
    unfold gaStep
    exact fillChildren_append g limits P cr mr (sortDesc pop) P _ _
  refine ⟨happ, ?_⟩
  obtain ⟨tail, htail⟩ := happ
  obtain ⟨k, hk⟩ : ∃ k, P / 10 = k + 1 := ⟨P / 10 - 1, by omega⟩
  refine ⟨b, ?_, ?_⟩
  · rw [htail, hbt, hk, List.take_succ_cons]
    exact List.mem_append_left _ (List.mem_cons_self _ _)
  · intro c' hc'
    have hc's : c' ∈ sortDesc pop := (sortDesc_perm pop).mem_iff.mpr hc'
    have hsorted : List.Sorted fitGe (sortDesc pop) :=
      List.sorted_insertionSort fitGe pop
    rw [hbt] at hc's hsorted
    rcases List.mem_cons.mp hc's with h | h
    · rw [h]
    · exact (List.sorted_cons.mp hsorted).1 c' h

unseal Rat.add Rat.mul Rat.inv Rat.sub Nat.gcd in
/-- C5, witness of the amended theorem at population size 10. -/
theorem c5_witness :
    (1 ≤ 10 / 10 ∧ pop10 ≠ []) ∧
    ((∃ tail, (gaStep exG3 [] 10 0 0 (pop10, cRng)).1 =
        (sortDesc pop10).take (10 / 10) ++ tail) ∧
      ∃ c ∈ (gaStep exG3 [] 10 0 0 (pop10, cRng)).1,
        ∀ c' ∈ pop10, c'.fitness ≤ c.fitness) :=
  ⟨⟨by decide, by decide⟩,
   c5_elitism exG3 [] 10 0 0 pop10 cRng (by decide) (by decide)⟩

/-- C9, witness: two definitionally different but pointwise equal streams. -/
theorem c9_witness :
    (∀ k, (⟨fun k => k, fun _ => 0, 0⟩ : Rng).natF k
        = (⟨fun k => 0 + k, fun k => 0 * (k : ℚ), 0⟩ : Rng).natF k) ∧
    gaPopulations exG3 1 1 0 0 [] ⟨fun k => k, fun _ => 0, 0⟩
      = gaPopulations exG3 1 1 0 0 [] ⟨fun k => 0 + k, fun k => 0 * (k : ℚ), 0⟩ :=
  ⟨fun k => (Nat.zero_add k).symm,
   c9_determinism exG3 1 1 0 0 [] _ _
     (fun k => (Nat.zero_add k).symm)
     (fun k => (zero_mul (k : ℚ)).symm)
     rfl⟩

/-! ### C3 -/

/-- Replacing the element at a position and re-consing the old value is a
permutation-preserving operation. -/
theorem cons_getD_set_perm : ∀ (t : List Nat) (j a : Nat), j < t.length →
    (t.getD j 0 :: t.set j a).Perm (a :: t) := by
  intro t
  induction t with
  | nil =>
    intro j a h
    simp at h
  | cons x s ih =>
    intro j a h
    cases j with
    | zero =>
      simp only [List.getD_cons_zero, List.set_cons_zero]
      exact List.Perm.swap a x s
    | succ j' =>
      have h' : j' < s.length := by simpa using h
      simp only [List.getD_cons_succ, List.set_cons_succ]
      refine List.Perm.trans (List.Perm.swap x (s.getD j' 0) (s.set j' a)) ?_
      refine List.Perm.trans ((ih j' a h').cons x) ?_
      exact List.Perm.swap a x s

/-- `Vec::swap` with in-bounds indices permutes the list. -/
theorem listSwap_perm : ∀ (l : List Nat) (i j : Nat), i < l.length → j < l.length →
    (listSwap l i j).Perm l := by
  intro l
  induction l with
  | nil =>
    intro i j hi _
    simp at hi
  | cons x t ih =>
    intro i j hi hj
    cases i with
    | zero =>
      cases j with
      | zero =>
        have : listSwap (x :: t) 0 0 = x :: t := by
          simp [listSwap]
        rw [this]
      | succ j' =>
        have hj' : j' < t.length := by simpa using hj
        have : listSwap (x :: t) 0 (j' + 1) = t.getD j' 0 :: t.set j' x := by
          simp [listSwap]
        rw [this]
        exact cons_getD_set_perm t j' x hj'
    | succ i' =>
      have hi' : i' < t.length := by simpa using hi
      cases j with
      | zero =>
        have : listSwap (x :: t) (i' + 1) 0 = t.getD i' 0 :: t.set i' x := by
          simp [listSwap]
        rw [this]
        exact cons_getD_set_perm t i' x hi'
      | succ j' =>
        have hj' : j' < t.length := by simpa using hj
        have : listSwap (x :: t) (i' + 1) (j' + 1) = x :: listSwap t i' j' := by
          simp [listSwap]
        rw [this]
        exact (ih i' j' hi' hj').cons x

/-- A Fisher-Yates pass over in-range indices permutes the list, whatever the
random draws. -/
theorem shuffleFold_perm : ∀ (idxs : List Nat) (l : List Nat) (rng : Rng),
    (∀ i ∈ idxs, i < l.length) → ((shuffleFold l idxs rng).1).Perm l := by
  intro idxs
  induction idxs with
  | nil => intro l rng _; exact List.Perm.refl l
  | cons i rest ih =>
    intro l rng h
    have hi : i < l.length := h i (List.mem_cons_self _ _)
    have hdraw : rng.natF rng.idx % (i + 1) < l.length := by
      have h2 : rng.natF rng.idx % (i + 1) < i + 1 := Nat.mod_lt _ (by omega)
      omega
    have hswap : (listSwap l i (rng.natF rng.idx % (i + 1))).Perm l :=
      listSwap_perm l i _ hi hdraw
    have hstep : shuffleFold l (i :: rest) rng =
        shuffleFold (listSwap l i (rng.natF rng.idx % (i + 1))) rest
          ⟨rng.natF, rng.ratF, rng.idx + 1⟩ := rfl
    rw [hstep]
    refine (ih _ _ ?_).trans hswap
    intro i' hi'
    rw [hswap.length_eq]
    exact h i' (List.mem_cons_of_mem _ hi')

theorem shuffle_perm (l : List Nat) (rng : Rng) : ((shuffle l rng).1).Perm l := by
  apply shuffleFold_perm
  intro i hi
  rw [List.mem_reverse, List.mem_range'_1] at hi
  omega

/-- C3, part 1: randomly generated chromosomes hold permutations of the
intermediate nodes. -/
theorem generate_perm (num_nodes : Nat) (rng : Rng) :
    ((generate_random_chromosome num_nodes rng).1.genes).Perm
      (List.range' 1 (num_nodes - 2)) :=
  shuffle_perm (List.range' 1 (num_nodes - 2)) rng

/-- C3, part 3: swap mutation preserves the permutation invariant. -/
theorem mutate_perm (c : Chromosome) (mr : ℚ) (rng : Rng) (k : Nat)
    (h : c.genes.Perm (List.range' 1 k)) :
    ((mutate c mr rng).1.genes).Perm (List.range' 1 k) := by
  simp only [mutate]
  split
  · rcases Nat.eq_zero_or_pos c.genes.length with h0 | hpos
    · have hg : c.genes = [] := List.length_eq_zero.mp h0
      rw [hg] at h ⊢
      simpa [listSwap] using h
    · exact (listSwap_perm c.genes _ _ (Nat.mod_lt _ hpos) (Nat.mod_lt _ hpos)).trans h
  · exact h

theorem fillPos_nil_slots (c : List Nat) (vs : List Nat) : fillPos c [] vs = c := by
  cases vs <;> rfl

theorem fillPos_nil_vals (c : List Nat) (ss : List Nat) : fillPos c ss [] = c := by
  cases ss <;> rfl

theorem fillPos_cons (c : List Nat) (s : Nat) (ss : List Nat) (v : Nat) (vs : List Nat) :
    fillPos c (s :: ss) (v :: vs) = fillPos (c.set s v) ss vs := rfl

/-- Writes through positive slots do not touch the head. -/
theorem fillPos_cons_peel : ∀ (ss vs : List Nat) (x : Nat) (cs : List Nat),
    (∀ i ∈ ss, 1 ≤ i) →
    fillPos (x :: cs) ss vs = x :: fillPos cs (ss.map (fun i => i - 1)) vs := by
  intro ss
  induction ss with
  | nil =>
    intro vs x cs _
    simp [fillPos_nil_slots]
  | cons s ss' ih =>
    intro vs x cs h
    cases vs with
    | nil => simp [fillPos_nil_vals]
    | cons v vs' =>
      obtain ⟨s', hs'⟩ : ∃ s', s = s' + 1 := by
        have := h s (List.mem_cons_self _ _)
        exact ⟨s - 1, by omega⟩
      subst hs'
      rw [fillPos_cons, List.set_cons_succ,
        ih vs' x (cs.set s' v) (fun i hi => h i (List.mem_cons_of_mem _ hi)),
        List.map_cons, Nat.add_sub_cancel, fillPos_cons]

/-- Filling consecutive slots overwrites exactly the corresponding stretch. -/
theorem fillPos_range' : ∀ (s : Nat) (c vs : List Nat),
    s + vs.length ≤ c.length →
    fillPos c (List.range' s vs.length) vs =
      c.take s ++ vs ++ c.drop (s + vs.length) := by
  intro s
  induction s with
  | zero =>
    intro c vs
    induction vs generalizing c with
    | nil =>
      intro _
      simp [fillPos_nil_vals]
    | cons v vs' ihv =>
      intro h
      cases c with
      | nil => simp at h
      | cons x cs =>
        rw [List.length_cons, List.range'_succ, fillPos_cons, List.set_cons_zero]
        have hge : ∀ i ∈ List.range' 1 vs'.length, 1 ≤ i := by
          intro i hi
          rw [List.mem_range'_1] at hi
          omega
        rw [fillPos_cons_peel _ _ _ _ hge]
        have hmap : (List.range' 1 vs'.length).map (fun i => i - 1) =
            List.range' 0 vs'.length := by
          rw [List.range'_eq_map_range, List.range'_eq_map_range, List.map_map]
          refine List.map_congr_left ?_
          intro a _
          simp
        rw [hmap]
        have hlen : vs'.length ≤ cs.length := by
          simp at h
          omega
        rw [ihv cs (by omega)]
        simp
  | succ s' ihs =>
    intro c vs h
    cases c with
    | nil =>
      simp at h
    | cons x cs =>
        have hge : ∀ i ∈ List.range' (s' + 1) vs.length, 1 ≤ i := by
          intro i hi
          rw [List.mem_range'_1] at hi
          omega
        rw [fillPos_cons_peel _ _ _ _ hge]
        have hmap : (List.range' (s' + 1) vs.length).map (fun i => i - 1) =
            List.range' s' vs.length := by
          rw [List.range'_eq_map_range, List.range'_eq_map_range, List.map_map]
          refine List.map_congr_left ?_
          intro a _
          simp
        rw [hmap]
        have hlen : s' + vs.length ≤ cs.length := by
          simp at h
          omega
        rw [ihs cs vs hlen, List.take_succ_cons,
          show s' + 1 + vs.length = (s' + vs.length) + 1 from by omega,
          List.drop_succ_cons]
        simp

/-- Folding position-wise writes equals a `fillPos` with the mapped values. -/
theorem foldl_set_eq_fillPos : ∀ (idxs : List Nat) (f : Nat → Nat) (c : List Nat),
    idxs.foldl (fun c i => c.set i (f i)) c = fillPos c idxs (idxs.map f) := by
  intro idxs
  induction idxs with
  | nil => intro f c; rfl
  | cons i rest ih =>
    intro f c
    rw [List.foldl_cons, List.map_cons, fillPos_cons]
    exact ih f _

theorem fillPos_append : ∀ (s1 v1 s2 v2 : List Nat) (c : List Nat),
    s1.length = v1.length →
    fillPos c (s1 ++ s2) (v1 ++ v2) = fillPos (fillPos c s1 v1) s2 v2 := by
  intro s1
  induction s1 with
  | nil =>
    intro v1 s2 v2 c h
    have : v1 = [] := List.length_eq_zero.mp h.symm
    subst this
    rw [List.nil_append, List.nil_append, fillPos_nil_slots]
  | cons s ss ih =>
    intro v1 s2 v2 c h
    cases v1 with
    | nil => simp at h
    | cons v vs =>
      rw [List.cons_append, List.cons_append, fillPos_cons, fillPos_cons]
      exact ih vs s2 v2 _ (by simpa using h)

theorem fillLoop_nil (used : Nat → Bool) (start n : Nat) (c : List Nat) (j : Nat) :
    fillLoop used start n [] c j = c := rfl

/-- When every incoming gene is used, the fill loop is the identity. -/
theorem fillLoop_all_used (used : Nat → Bool) (start n : Nat) :
    ∀ (gs c : List Nat) (j : Nat),
      (∀ g ∈ gs, used g = true) → fillLoop used start n gs c j = c := by
  intro gs
  induction gs with
  | nil => intro c j _; rfl
  | cons g rest ih =>
    intro c j h
    rw [show fillLoop used start n (g :: rest) c j = fillLoop used start n rest c j from by
      simp only [fillLoop]; rw [if_pos (h g (List.mem_cons_self _ _))]]
    exact ih c j fun g' hg' => h g' (List.mem_cons_of_mem _ hg')

/-- The fill loop is a sequential write of the unused genes into the cyclic
run of `d` slots that starts at `j` and ends right before `start`. -/
theorem fillLoop_eq_fillPos (used : Nat → Bool) (start n : Nat)
    (hn : 0 < n) :
    ∀ (gs c : List Nat) (j d : Nat),
      j < n → 1 ≤ d → d ≤ n → (j + d) % n = start →
      fillLoop used start n gs c j =
        fillPos c ((List.range d).map (fun t => (j + t) % n))
          ((gs.filter (fun g => !used g)).take d) := by
  intro gs
  induction gs with
  | nil =>
    intro c j d _ _ _ _
    rw [fillLoop_nil, List.filter_nil, List.take_nil, fillPos_nil_vals]
  | cons g rest ih =>
    intro c j d hj hd1 hdn hjd
    by_cases hu : used g = true
    · have hfilter : (g :: rest).filter (fun g => !used g) =
          rest.filter (fun g => !used g) :=
        List.filter_cons_of_neg (by simp [hu])
      rw [hfilter]
      rw [show fillLoop used start n (g :: rest) c j = fillLoop used start n rest c j from by
        simp only [fillLoop]; rw [if_pos hu]]
      exact ih c j d hj hd1 hdn hjd
    · have hbu : (!used g) = true := by simp [hu]
      have hfilter : (g :: rest).filter (fun g => !used g) =
          g :: rest.filter (fun g => !used g) := List.filter_cons_of_pos hbu
      rw [hfilter]
      obtain ⟨d', rfl⟩ : ∃ d', d = d' + 1 := ⟨d - 1, by omega⟩
      have hslots : (List.range (d' + 1)).map (fun t => (j + t) % n) =
          j :: (List.range d').map (fun t => ((j + 1) % n + t) % n) := by
        rw [List.range_succ_eq_map, List.map_cons, List.map_map]
        congr 1
        · simpa using Nat.mod_eq_of_lt hj
        · refine List.map_congr_left ?_
          intro t _
          show (j + (t + 1)) % n = ((j + 1) % n + t) % n
          rw [Nat.mod_add_mod]
          congr 1
          omega
      rw [hslots, List.take_succ_cons, fillPos_cons]
      rw [show fillLoop used start n (g :: rest) c j =
          (if (j + 1) % n = start then c.set j g
           else fillLoop used start n rest (c.set j g) ((j + 1) % n)) from by
        simp only [fillLoop]; rw [if_neg hu]]
      by_cases hbreak : (j + 1) % n = start
      · rw [if_pos hbreak]
        have hd0 : d' = 0 := by
          have h1 : (j + 1) % n = (j + (d' + 1)) % n := hbreak.trans hjd.symm
          have hmeq : (1 : Nat) ≡ d' + 1 [MOD n] := Nat.ModEq.add_left_cancel' j h1
          have hmeq0 : (0 : Nat) + 1 ≡ d' + 1 [MOD n] := by simpa using hmeq
          have hmeq2 : (0 : Nat) ≡ d' [MOD n] := Nat.ModEq.add_right_cancel' 1 hmeq0
          have hd'n : d' < n := by omega
          have h2 : d' % n = 0 % n := hmeq2.symm
          rw [Nat.mod_eq_of_lt hd'n, Nat.zero_mod] at h2
          exact h2
        subst hd0
        simp [fillPos_nil_vals]
      · rw [if_neg hbreak]
        have hd'pos : 1 ≤ d' := by
          rcases Nat.eq_zero_or_pos d' with h0 | h1
          · exfalso
            apply hbreak
            rw [← hjd, h0]
          · exact h1
        have hnext : ((j + 1) % n + d') % n = start := by
          rw [Nat.mod_add_mod, show j + 1 + d' = j + (d' + 1) from by omega]
          exact hjd
        exact ih (c.set j g) ((j + 1) % n) d' (Nat.mod_lt _ hn) hd'pos (by omega) hnext

/-- Reading a consecutive index range out of a list is a take of a drop. -/
theorem map_getD_range' : ∀ (cnt s : Nat) (l : List Nat), s + cnt ≤ l.length →
    (List.range' s cnt).map (fun i => l.getD i 0) = (l.drop s).take cnt := by
  intro cnt
  induction cnt with
  | zero =>
    intro s l _
    simp
  | succ c ih =>
    intro s l h
    have hs : s < l.length := by omega
    rw [List.range'_succ, List.map_cons, ih (s + 1) l (by omega),
      List.getD_eq_getElem l 0 hs, List.drop_eq_getElem_cons hs, List.take_succ_cons]

/-- The cyclic slot run from `j` splits into the tail stretch `j..n-1` and the
head stretch `0..b-1`. -/
theorem cyclic_slots (n j a b : Nat) (hja : j + a = n) (hb : b < n) :
    (List.range (a + b)).map (fun t => (j + t) % n) =
      List.range' j a ++ List.range' 0 b := by
  rw [List.range_add, List.map_append, List.map_map]
  congr 1
  · rw [List.range'_eq_map_range]
    refine List.map_congr_left ?_
    intro t ht
    rw [List.mem_range] at ht
    exact Nat.mod_eq_of_lt (by omega)
  · rw [List.range'_eq_map_range]
    refine List.map_congr_left ?_
    intro t ht
    rw [List.mem_range] at ht
    show (j + (a + t)) % n = 0 + t
    rw [show j + (a + t) = n + t from by omega, Nat.add_mod_left,
      Nat.mod_eq_of_lt (by omega), Nat.zero_add]

/-- Structure of the child right after the segment copy: zeros, the copied
segment values, zeros. -/
theorem childSeg_eq (genes1 : List Nat) (k start endIdx : Nat)
    (hse : start ≤ endIdx) (hek : endIdx < k) :
    childSeg genes1 k start endIdx =
      List.replicate start 0 ++ segVals genes1 start endIdx ++
        List.replicate (k - (endIdx + 1)) 0 := by
  have hlenseg : (segVals genes1 start endIdx).length = endIdx + 1 - start := by
    unfold segVals segIdx
    rw [List.length_map, List.length_range']
  unfold childSeg
  rw [foldl_set_eq_fillPos]
  rw [show (segIdx start endIdx).map (fun i => genes1.getD i 0) =
      segVals genes1 start endIdx from rfl]
  have hfp := fillPos_range' start (List.replicate k 0) (segVals genes1 start endIdx)
    (by rw [hlenseg, List.length_replicate]; omega)
  rw [hlenseg] at hfp
  rw [show segIdx start endIdx = List.range' start (endIdx + 1 - start) from rfl]
  rw [hfp, show start + (endIdx + 1 - start) = endIdx + 1 from by omega,
    List.take_replicate, List.drop_replicate, Nat.min_eq_left (by omega)]

/-- The length of the copied child is the parent length. -/
theorem childSeg_length (genes1 : List Nat) (k start endIdx : Nat)
    (hse : start ≤ endIdx) (hek : endIdx < k) :
    (childSeg genes1 k start endIdx).length = k := by
  rw [childSeg_eq genes1 k start endIdx hse hek]
  have hlenseg : (segVals genes1 start endIdx).length = endIdx + 1 - start := by
    unfold segVals segIdx
    rw [List.length_map, List.length_range']
  simp [hlenseg]
  omega

/-- C3, part 2 (core): with permutation parents and in-range cut points the
order-crossover child is again a permutation of `1..k`. -/
theorem crossoverGenes_perm (genes1 genes2 : List Nat) (k x1 x2 : Nat)
    (h1 : genes1.Perm (List.range' 1 k)) (h2 : genes2.Perm (List.range' 1 k))
    (hx1 : x1 < k) (hx2 : x2 < k) :
    (crossoverGenes genes1 genes2 x1 x2).Perm (List.range' 1 k) := by
  have hkpos : 0 < k := by omega
  have hn : genes1.length = k := by rw [h1.length_eq, List.length_range']
  have hn2 : genes2.length = k := by rw [h2.length_eq, List.length_range']
  obtain ⟨start, endIdx, hse, hek, hcg⟩ :
      ∃ s e, s ≤ e ∧ e < k ∧ crossoverGenes genes1 genes2 x1 x2 =
        fillLoop (usedF genes1 s e) s genes1.length (genes2.take genes1.length)
          (childSeg genes1 genes1.length s e) ((e + 1) % genes1.length) :=
    ⟨min x1 x2, max x1 x2, min_le_max, max_lt hx1 hx2, rfl⟩
  rw [hcg, hn]
  have htake : genes2.take k = genes2 := by
    rw [← hn2]
    exact List.take_length genes2
  rw [htake]
  have hrangeNodup : (List.range' 1 k).Nodup := List.nodup_range' 1 k 1 (by omega)
  have hsegvals : segVals genes1 start endIdx =
      (genes1.drop start).take (endIdx + 1 - start) := by
    unfold segVals segIdx
    exact map_getD_range' (endIdx + 1 - start) start genes1 (by omega)
  have hnodup1 : genes1.Nodup := h1.nodup_iff.mpr hrangeNodup
  have hsub : (segVals genes1 start endIdx).Sublist genes1 := by
    rw [hsegvals]
    exact ((genes1.drop start).take_sublist _).trans (genes1.drop_sublist start)
  have hnodupseg : (segVals genes1 start endIdx).Nodup := hsub.nodup hnodup1
  have hsubset : ∀ a ∈ segVals genes1 start endIdx, a ∈ List.range' 1 k :=
    fun a ha => h1.subset (hsub.subset ha)
  have hlenseg : (segVals genes1 start endIdx).length = endIdx + 1 - start := by
    unfold segVals segIdx
    rw [List.length_map, List.length_range']
  have husedIff : ∀ gene, usedF genes1 start endIdx gene = true ↔
      gene ∈ segVals genes1 start endIdx := by
    intro gene
    unfold usedF
    simp
  have hcs := childSeg_eq genes1 k start endIdx hse hek
  have hcslen := childSeg_length genes1 k start endIdx hse hek
  have husflt : (genes2.filter (fun g => !usedF genes1 start endIdx g)).Perm
      ((List.range' 1 k).filter (fun g => !usedF genes1 start endIdx g)) :=
    h2.filter _
  have husedperm : ((List.range' 1 k).filter
      (fun g => usedF genes1 start endIdx g)).Perm (segVals genes1 start endIdx) := by
    refine (List.perm_ext_iff_of_nodup (List.Nodup.filter _ hrangeNodup) hnodupseg).mpr ?_
    intro a
    rw [List.mem_filter]
    constructor
    · rintro ⟨_, hu⟩
      exact (husedIff a).mp hu
    · intro ha
      exact ⟨hsubset a ha, (husedIff a).mpr ha⟩
  have hlenus : (genes2.filter (fun g => !usedF genes1 start endIdx g)).length =
      k - (endIdx + 1 - start) := by
    have h3 := (List.filter_append_perm (fun g => usedF genes1 start endIdx g)
      (List.range' 1 k)).length_eq
    rw [List.length_append, List.length_range'] at h3
    have h4 := husedperm.length_eq
    rw [hlenseg] at h4
    have h5 := husflt.length_eq
    omega
  have hfinal : (segVals genes1 start endIdx ++
      genes2.filter (fun g => !usedF genes1 start endIdx g)).Perm
      (List.range' 1 k) := by
    refine List.Perm.trans (List.Perm.append husedperm.symm husflt) ?_
    exact List.filter_append_perm _ _
  by_cases hfull : endIdx + 1 - start = k
  · have hstart0 : start = 0 := by omega
    subst hstart0
    have hend1 : endIdx + 1 = k := by omega
    have hsegall : segVals genes1 0 endIdx = genes1 := by
      rw [hsegvals, List.drop_zero, show endIdx + 1 - 0 = k from by omega, ← hn]
      exact List.take_length genes1
    have hall : ∀ g ∈ genes2, usedF genes1 0 endIdx g = true := by
      intro g hg
      rw [husedIff, hsegall]
      exact h1.mem_iff.mpr (h2.subset hg)
    rw [fillLoop_all_used _ _ _ _ _ _ hall, hcs, List.replicate_zero,
      show k - (endIdx + 1) = 0 from by omega, List.replicate_zero,
      List.nil_append, List.append_nil, hsegall]
    exact h1
  · have hd1 : 1 ≤ k - (endIdx + 1 - start) := by omega
    rw [fillLoop_eq_fillPos (usedF genes1 start endIdx) start k hkpos genes2
      (childSeg genes1 k start endIdx) ((endIdx + 1) % k) (k - (endIdx + 1 - start))
      (Nat.mod_lt _ hkpos) hd1 (by omega)
      (by
        rw [Nat.mod_add_mod,
          show endIdx + 1 + (k - (endIdx + 1 - start)) = k + start from by omega,
          Nat.add_mod_left]
        exact Nat.mod_eq_of_lt (by omega))]
    rw [show (genes2.filter (fun g => !usedF genes1 start endIdx g)).take
        (k - (endIdx + 1 - start)) =
        genes2.filter (fun g => !usedF genes1 start endIdx g) from by
      rw [← hlenus]
      exact List.take_length _]
    by_cases hlast : endIdx + 1 = k
    · -- the segment touches the last position: one head run of length `start`
      have ha0 : k - (endIdx + 1 - start) = start := by omega
      have hj0 : (endIdx + 1) % k = 0 := by
        rw [hlast, Nat.mod_self]
      rw [ha0, hj0]
      have hslots : (List.range start).map (fun t => (0 + t) % k) = List.range' 0 start := by
        rw [List.range'_eq_map_range]
        refine List.map_congr_left ?_
        intro t ht
        rw [List.mem_range] at ht
        rw [Nat.zero_add]
        exact Nat.mod_eq_of_lt (by omega)
      rw [hslots]
      have huslen : (genes2.filter (fun g => !usedF genes1 start endIdx g)).length = start := by
        omega
      rw [show List.range' 0 start =
          List.range' 0 (genes2.filter (fun g => !usedF genes1 start endIdx g)).length from by
        rw [huslen]]
      rw [fillPos_range' 0 _ _ (by rw [huslen, hcslen]; omega)]
      rw [List.take_zero, List.nil_append, Nat.zero_add, huslen]
      rw [hcs, show k - (endIdx + 1) = 0 from by omega, List.replicate_zero,
        List.append_nil,
        List.drop_left' (by simp : (List.replicate start (0 : Nat)).length = start)]
      exact List.perm_append_comm.trans hfinal
    · -- the segment ends before the last position: a tail run then a head run
      have hjlt : endIdx + 1 < k := by omega
      rw [Nat.mod_eq_of_lt hjlt,
        show k - (endIdx + 1 - start) = (k - (endIdx + 1)) + start from by omega,
        cyclic_slots k (endIdx + 1) (k - (endIdx + 1)) start (by omega) (by omega)]
      rw [show genes2.filter (fun g => !usedF genes1 start endIdx g) =
          (genes2.filter (fun g => !usedF genes1 start endIdx g)).take (k - (endIdx + 1)) ++
            (genes2.filter (fun g => !usedF genes1 start endIdx g)).drop (k - (endIdx + 1))
          from (List.take_append_drop _ _).symm]
      have htlen : ((genes2.filter (fun g => !usedF genes1 start endIdx g)).take
          (k - (endIdx + 1))).length = k - (endIdx + 1) := by
        rw [List.length_take]
        omega
      have hdlen : ((genes2.filter (fun g => !usedF genes1 start endIdx g)).drop
          (k - (endIdx + 1))).length = start := by
        rw [List.length_drop]
        omega
      rw [fillPos_append _ _ _ _ _ (by rw [List.length_range', htlen])]
      rw [show List.range' (endIdx + 1) (k - (endIdx + 1)) =
          List.range' (endIdx + 1) ((genes2.filter (fun g => !usedF genes1 start endIdx g)).take
            (k - (endIdx + 1))).length from by rw [htlen]]
      rw [fillPos_range' (endIdx + 1) _ _ (by rw [htlen, hcslen]; omega)]
      rw [htlen, List.drop_eq_nil_of_le (by rw [hcslen]; omega), List.append_nil]
      rw [hcs, List.take_left' (by simp [hlenseg]; omega)]
      rw [show List.range' 0 start =
          List.range' 0 ((genes2.filter (fun g => !usedF genes1 start endIdx g)).drop
            (k - (endIdx + 1))).length from by rw [hdlen]]
      rw [fillPos_range' 0 _ _ (by
        rw [hdlen]
        simp [List.length_append, hlenseg, htlen])]
      rw [List.take_zero, List.nil_append, Nat.zero_add, hdlen]
      rw [List.append_assoc,
        List.drop_left' (by simp : (List.replicate start (0 : Nat)).length = start)]
      refine List.Perm.trans List.perm_append_comm ?_
      rw [List.append_assoc, List.take_append_drop]
      exact hfinal

theorem foldl_set_nil : ∀ (idxs : List Nat) (f : Nat → Nat),
    idxs.foldl (fun c i => c.set i (f i)) [] = ([] : List Nat) := by
  intro idxs f
  induction idxs with
  | nil => rfl
  | cons i rest ih =>
    rw [List.foldl_cons, List.set_nil]
    exact ih

/-- C3, part 2: crossover of permutation parents yields a permutation child. -/
theorem crossover_perm (p1 p2 : Chromosome) (rng : Rng) (k : Nat)
    (h1 : p1.genes.Perm (List.range' 1 k)) (h2 : p2.genes.Perm (List.range' 1 k)) :
    ((crossover p1 p2 rng).1.genes).Perm (List.range' 1 k) := by
  have hn : p1.genes.length = k := by rw [h1.length_eq, List.length_range']
  rcases Nat.eq_zero_or_pos k with hk0 | hkpos
  · subst hk0
    have hempty : (crossover p1 p2 rng).1.genes = [] := by
      show crossoverGenes p1.genes p2.genes
        (rng.natF rng.idx % p1.genes.length)
        (rng.natF (rng.idx + 1) % p1.genes.length) = []
      simp only [crossoverGenes]
      rw [hn, List.take_zero, fillLoop_nil]
      unfold childSeg
      rw [List.replicate_zero]
      exact foldl_set_nil _ _
    rw [hempty]
    simp
  · show (crossoverGenes p1.genes p2.genes (rng.natF rng.idx % p1.genes.length)
      (rng.natF (rng.idx + 1) % p1.genes.length)).Perm (List.range' 1 k)
    exact crossoverGenes_perm p1.genes p2.genes k _ _ h1 h2
      (by rw [hn]; exact Nat.mod_lt _ hkpos)
      (by rw [hn]; exact Nat.mod_lt _ hkpos)

/-- C3: confirmed.  (1) Random generation produces a permutation of the
intermediate nodes `1..num_nodes-2`; (2) order crossover of two permutation
parents produces a permutation of the same set - in particular the spec's
worry about an under-filled, zero-carrying child cannot arise for permutation
parents; (3) swap mutation preserves the permutation. -/
theorem c3_permutation :
    (∀ (num_nodes : Nat) (rng : Rng),
      ((generate_random_chromosome num_nodes rng).1.genes).Perm
        (List.range' 1 (num_nodes - 2))) ∧
    (∀ (p1 p2 : Chromosome) (rng : Rng) (k : Nat),
      p1.genes.Perm (List.range' 1 k) → p2.genes.Perm (List.range' 1 k) →
      ((crossover p1 p2 rng).1.genes).Perm (List.range' 1 k)) ∧
    (∀ (c : Chromosome) (mr : ℚ) (rng : Rng) (k : Nat),
      c.genes.Perm (List.range' 1 k) →
      ((mutate c mr rng).1.genes).Perm (List.range' 1 k)) :=
  ⟨generate_perm,
   fun p1 p2 rng k h1 h2 => crossover_perm p1 p2 rng k h1 h2,
   fun c mr rng k h => mutate_perm c mr rng k h⟩

/-- C3, witness on concrete parents over the intermediate nodes `{1, 2, 3}`. -/
theorem c3_witness :
    ((⟨[2, 1, 3], 0⟩ : Chromosome).genes.Perm (List.range' 1 3) ∧
      (⟨[3, 1, 2], 0⟩ : Chromosome).genes.Perm (List.range' 1 3)) ∧
    ((generate_random_chromosome 5 cRng).1.genes).Perm (List.range' 1 3) ∧
    ((crossover ⟨[2, 1, 3], 0⟩ ⟨[3, 1, 2], 0⟩ cRng).1.genes).Perm (List.range' 1 3) ∧
    ((mutate ⟨[2, 1, 3], 0⟩ 1 cRng).1.genes).Perm (List.range' 1 3) :=
  ⟨⟨by decide, by decide⟩,
   c3_permutation.1 5 cRng,
   c3_permutation.2.1 ⟨[2, 1, 3], 0⟩ ⟨[3, 1, 2], 0⟩ cRng 3 (by decide) (by decide),
   c3_permutation.2.2 ⟨[2, 1, 3], 0⟩ 1 cRng 3 (by decide)⟩

end RCSPP
